import Mathlib

/-!
Verification development for the dae-wing reload orchestrator and
runtime-configuration assembly builder.

The Go sources are shallowly embedded:
* `config/config.go` (the assembly builder `Run`, `deduplicateNodes`,
  `uniquefyNodesName`, and `config.Update`) in the `DW` namespace;
* `dae/dae.go` (the reload orchestrator loop) as an explicit step function
  over a loop state;
* `graphql/service/routing/mutation_utils.go` (`routing.Update`).

Go maps have unspecified iteration order; every place the source iterates a
map to produce a list, the embedding takes the iteration order as an explicit
permutation parameter.  External collaborators (the dae config parser,
`dae.NecessaryOutbounds`, the control-plane engine, the database driver) are
modelled as oracle parameters, as the spec treats them as external contracts.
-/

namespace DW

/-! ### Decimal rendering, mirroring Go `fmt.Sprintf("%v", n)` on naturals -/

/-- Decimal digits of `n`, least significant first; `fuel`-bounded structural
recursion (any `fuel ≥ n` is exact). -/
def natToRevDigits : Nat → Nat → List Nat
  | 0, _ => []
  | fuel + 1, n => if n = 0 then [] else n % 10 :: natToRevDigits fuel (n / 10)

/-- Value of a least-significant-first digit list. -/
def ofRevDigits : List Nat → Nat
  | [] => 0
  | d :: ds => d + 10 * ofRevDigits ds

/-- Digit list used for rendering (`[0]` for zero). -/
def reprDigits (n : Nat) : List Nat :=
  if n = 0 then [0] else natToRevDigits n n

/-- The character for one decimal digit. -/
def digitCharOf (d : Nat) : Char := Char.ofNat (48 + d)

/-- Decimal string of a natural number, as Go's `%v` renders it. -/
def natRepr (n : Nat) : String :=
  ((reprDigits n).reverse.map digitCharOf).asString

theorem ofRevDigits_natToRevDigits (fuel : Nat) :
    ∀ n, n ≤ fuel → ofRevDigits (natToRevDigits fuel n) = n := by
  induction fuel with
  | zero => intro n hn; interval_cases n; simp [natToRevDigits, ofRevDigits]
  | succ fuel ih =>
    intro n hn
    by_cases h0 : n = 0
    · subst h0; simp [natToRevDigits, ofRevDigits]
    · have hdiv : n / 10 ≤ fuel := by
        have : n / 10 < n := Nat.div_lt_self (Nat.pos_of_ne_zero h0) (by omega)
        omega
      simp only [natToRevDigits, if_neg h0, ofRevDigits, ih _ hdiv]
      omega

theorem ofRevDigits_reprDigits (n : Nat) : ofRevDigits (reprDigits n) = n := by
  by_cases h0 : n = 0
  · subst h0; simp [reprDigits, ofRevDigits]
  · simp only [reprDigits, if_neg h0]
    exact ofRevDigits_natToRevDigits n n le_rfl

theorem natToRevDigits_lt_ten (fuel : Nat) :
    ∀ n d, d ∈ natToRevDigits fuel n → d < 10 := by
  induction fuel with
  | zero => intro n d hd; simp [natToRevDigits] at hd
  | succ fuel ih =>
    intro n d hd
    by_cases h0 : n = 0
    · subst h0; simp [natToRevDigits] at hd
    · simp only [natToRevDigits, if_neg h0, List.mem_cons] at hd
      rcases hd with h | h
      · subst h; exact Nat.mod_lt _ (by omega)
      · exact ih _ _ h

theorem reprDigits_lt_ten (n : Nat) : ∀ d ∈ reprDigits n, d < 10 := by
  intro d hd
  by_cases h0 : n = 0
  · subst h0; simp [reprDigits] at hd; omega
  · simp only [reprDigits, if_neg h0] at hd
    exact natToRevDigits_lt_ten n n d hd

theorem digitCharOf_toNat (d : Nat) (hd : d < 10) : (digitCharOf d).toNat = 48 + d := by
  interval_cases d <;> decide

theorem digitCharOf_inj {a b : Nat} (ha : a < 10) (hb : b < 10)
    (h : digitCharOf a = digitCharOf b) : a = b := by
  have := congrArg Char.toNat h
  rw [digitCharOf_toNat a ha, digitCharOf_toNat b hb] at this
  omega

theorem map_digitCharOf_inj : ∀ {l₁ l₂ : List Nat}, (∀ d ∈ l₁, d < 10) →
    (∀ d ∈ l₂, d < 10) → l₁.map digitCharOf = l₂.map digitCharOf → l₁ = l₂ := by
  intro l₁
  induction l₁ with
  | nil => intro l₂ _ _ h; cases l₂ <;> simp_all
  | cons a l ih =>
    intro l₂ h1 h2 h
    cases l₂ with
    | nil => simp at h
    | cons b l' =>
      simp only [List.map_cons, List.cons.injEq] at h
      have hab : a = b :=
        digitCharOf_inj (h1 a (by simp)) (h2 b (by simp)) h.1
      have := ih (fun d hd => h1 d (by simp [hd])) (fun d hd => h2 d (by simp [hd])) h.2
      simp [hab, this]

theorem asString_inj {l₁ l₂ : List Char} (h : l₁.asString = l₂.asString) : l₁ = l₂ := by
  have := congrArg String.data h
  simpa [List.asString] using this

theorem natRepr_inj : Function.Injective natRepr := by
  intro a b h
  have hd : (reprDigits a).reverse.map digitCharOf
      = (reprDigits b).reverse.map digitCharOf := asString_inj h
  have : (reprDigits a).reverse = (reprDigits b).reverse :=
    map_digitCharOf_inj
      (fun d hd => reprDigits_lt_ten a d (List.mem_reverse.mp hd))
      (fun d hd => reprDigits_lt_ten b d (List.mem_reverse.mp hd)) hd
  have hrd : reprDigits a = reprDigits b := List.reverse_injective this
  have := congrArg ofRevDigits hrd
  rwa [ofRevDigits_reprDigits, ofRevDigits_reprDigits] at this

/-! ### Data model: persisted node records (`db.Node` fields used by the core) -/

/-- The fields of a persisted `db.Node` the assembly builder reads. -/
structure DbNode where
  name : String
  link : String
  tag : Option String
  subscriptionId : Option Nat
  deriving Repr, DecidableEq

/-- The builder-internal `node` struct of `config.go`: a db record, the ids of
the groups it belongs to, and its assigned unique name (zero value `""`). -/
structure NodeRec where
  dbNode : DbNode
  groups : List Nat
  uniqueName : String := ""
  deriving Repr, DecidableEq

/-! ### `deduplicateNodes` (config.go lines 142–156)

The Go function folds the input into a map keyed by connection link, appending
the groups of a later record with an already-seen link onto the record that
first carried it, then returns the map's values.  `dedupFold` is that map in
insertion order; the Go return order is an arbitrary permutation of it. -/

/-- One insertion step of `deduplicateNodes`'s map-building loop. -/
def dedupInsert (acc : List NodeRec) (n : NodeRec) : List NodeRec :=
  if acc.any (fun m => m.dbNode.link == n.dbNode.link) then
    acc.map (fun m =>
      if m.dbNode.link == n.dbNode.link then
        { m with groups := m.groups ++ n.groups }
      else m)
  else
    acc ++ [n]

/-- The link-keyed map built by `deduplicateNodes`, in insertion order. -/
def dedupFold : List NodeRec → List NodeRec → List NodeRec
  | acc, [] => acc
  | acc, n :: rest => dedupFold (dedupInsert acc n) rest

/-- `deduplicateNodes` up to the Go map's value iteration order: the returned
slice is some permutation of `deduplicateNodesCore nodes`. -/
def deduplicateNodesCore (nodes : List NodeRec) : List NodeRec :=
  dedupFold [] nodes

/-! ### `uniquefyNodesName` (config.go lines 158–190) -/

/-- The stable sort of config.go line 161: nodes carrying a tag first, each
block keeping its relative order (`sort.SliceStable` with the comparator
`tag i ≠ nil ∧ tag j = nil` is exactly a stable partition). -/
def sortByTag (ns : List NodeRec) : List NodeRec :=
  ns.filter (fun n => n.dbNode.tag.isSome) ++ ns.filter (fun n => n.dbNode.tag.isNone)

/-- Base name of an untagged node (config.go lines 170–173):
`subscriptionID.name` when the node came from a subscription, else `name`. -/
def baseNameOf (d : DbNode) : String :=
  match d.subscriptionId with
  | some sid => natRepr sid ++ "." ++ d.name
  | none => d.name

/-- The `j`-th name tried for base name `base` (config.go lines 175–183):
the base itself first, then `base.0`, `base.1`, …. -/
def candidate (base : String) : Nat → String
  | 0 => base
  | j + 1 => base ++ "." ++ natRepr j

/-- Membership test of the Go `nameToNodes` map, modelled as an association
list from name to the index of the node that owns it. -/
def hasKey (m : List (String × Nat)) (k : String) : Bool :=
  m.any (fun p => p.1 == k)

/-- Go `nameToNodes[k] = v`: overwrite the entry when the key is present,
append otherwise. -/
def mapInsert (m : List (String × Nat)) (k : String) (v : Nat) : List (String × Nat) :=
  if hasKey m k then
    m.map (fun p => if p.1 == k then (k, v) else p)
  else
    m ++ [(k, v)]

/-- The unbounded search of config.go lines 176–184, with structural fuel;
`probeFrom used base fuel i` tries `candidate base i`, `candidate base (i+1)`,
… Fuel `(length of used) + 1` always suffices (`probeFrom_spec`). -/
def probeFrom (used : List (String × Nat)) (base : String) : Nat → Nat → String
  | 0, i => candidate base i
  | fuel + 1, i =>
    if hasKey used (candidate base i) then probeFrom used base fuel (i + 1)
    else candidate base i

/-- The first free wanted name for an untagged node. -/
def probeName (m : List (String × Nat)) (base : String) : String :=
  probeFrom m base (m.length + 1) 0

/-- Process one node of the name-assignment loop (config.go lines 165–186):
a tagged node reserves its tag (overwriting any present holder), an untagged
node reserves the first free candidate of its base name. -/
def assignStep (m : List (String × Nat)) (i : Nat) (n : NodeRec) : List (String × Nat) :=
  match n.dbNode.tag with
  | some t => mapInsert m t i
  | none => mapInsert m (probeName m (baseNameOf n.dbNode)) i

/-- The whole name-assignment loop over the sorted node list. -/
def buildGo (m : List (String × Nat)) (i : Nat) : List NodeRec → List (String × Nat)
  | [] => m
  | n :: rest => buildGo (assignStep m i n) (i + 1) rest

/-- The final loop of config.go lines 187–189 resolves, for the node at sorted
position `i`, the name under which it is stored in the map (a node appears as
a value of at most one entry — each loop iteration inserts its own index
exactly once — so the order of this map iteration is immaterial; a node that
was overwritten out of the map keeps the zero value `""`). -/
def lookupNameOf (m : List (String × Nat)) (i : Nat) : String :=
  match m.find? (fun p => p.2 == i) with
  | some p => p.1
  | none => ""

/-- Write every node's resolved name, the node at overall position `i`
receiving `lookupNameOf m i`. -/
def applyNames (m : List (String × Nat)) : Nat → List NodeRec → List NodeRec
  | _, [] => []
  | i, n :: rest => { n with uniqueName := lookupNameOf m i } :: applyNames m (i + 1) rest

/-- `uniquefyNodesName`: sorts the slice in place (tagged first, stable) and
assigns every node its unique name.  Returns the slice as the caller observes
it afterwards. -/
def uniquefyNodesName (ns : List NodeRec) : List NodeRec :=
  let s := sortByTag ns
  applyNames (buildGo [] 0 s) 0 s

/-- The node section of the assembled config (config.go lines 410–413):
one `uniqueName:connectionLink` entry per node, in slice order. -/
def nodeSection (ns : List NodeRec) : List String :=
  ns.map (fun n => n.uniqueName ++ ":" ++ n.dbNode.link)

/-! ### Lemmas about the name map -/

theorem hasKey_iff_mem {m : List (String × Nat)} {k : String} :
    hasKey m k = true ↔ ∃ v, (k, v) ∈ m := by
  simp only [hasKey, List.any_eq_true, beq_iff_eq]
  constructor
  · rintro ⟨⟨k', v⟩, hm, rfl⟩; exact ⟨v, hm⟩
  · rintro ⟨v, hv⟩; exact ⟨(k, v), hv, rfl⟩

theorem mem_mapInsert {m : List (String × Nat)} {k k' : String} {v v' : Nat} :
    (k', v') ∈ mapInsert m k v ↔ (k' = k ∧ v' = v) ∨ ((k', v') ∈ m ∧ k' ≠ k) := by
  unfold mapInsert
  by_cases hk : hasKey m k = true
  · simp only [hk, if_true, List.mem_map]
    constructor
    · rintro ⟨⟨a, b⟩, hm, he⟩
      by_cases hak : a = k
      · subst hak
        simp only [beq_self_eq_true, if_true, Prod.mk.injEq] at he
        exact Or.inl ⟨he.1.symm, he.2.symm⟩
      · simp only [beq_iff_eq, hak, if_false, Prod.mk.injEq] at he
        obtain ⟨rfl, rfl⟩ := he
        exact Or.inr ⟨hm, hak⟩
    · rintro (⟨rfl, rfl⟩ | ⟨hm, hne⟩)
      · obtain ⟨w, hw⟩ := hasKey_iff_mem.mp hk
        exact ⟨(k', w), hw, by simp⟩
      · exact ⟨(k', v'), hm, by simp [hne]⟩
  · rw [if_neg hk]
    constructor
    · intro hmem
      rcases List.mem_append.mp hmem with hm | hs
      · refine Or.inr ⟨hm, fun he => hk ?_⟩
        exact hasKey_iff_mem.mpr ⟨v', he ▸ hm⟩
      · have he := List.mem_singleton.mp hs
        exact Or.inl ⟨congrArg Prod.fst he, congrArg Prod.snd he⟩
    · rintro (⟨rfl, rfl⟩ | ⟨hm, _⟩)
      · exact List.mem_append.mpr (Or.inr (List.mem_singleton.mpr rfl))
      · exact List.mem_append.mpr (Or.inl hm)

theorem hasKey_mapInsert {m : List (String × Nat)} {k k' : String} {v : Nat} :
    hasKey (mapInsert m k v) k' = true ↔ hasKey m k' = true ∨ k' = k := by
  simp only [hasKey_iff_mem]
  constructor
  · rintro ⟨w, hw⟩
    rcases mem_mapInsert.mp hw with ⟨rfl, _⟩ | ⟨hm, _⟩
    · exact Or.inr rfl
    · exact Or.inl ⟨w, hm⟩
  · rintro (⟨w, hw⟩ | rfl)
    · by_cases he : k' = k
      · exact ⟨v, mem_mapInsert.mpr (Or.inl ⟨he, rfl⟩)⟩
      · exact ⟨w, mem_mapInsert.mpr (Or.inr ⟨hw, he⟩)⟩
    · exact ⟨v, mem_mapInsert.mpr (Or.inl ⟨rfl, rfl⟩)⟩

/-- Invariant of the `nameToNodes` map after processing the first `i` nodes:
entries hold pairwise different names, values are indices of already-processed
nodes, and no index is held by two entries. -/
structure MapInv (m : List (String × Nat)) (i : Nat) : Prop where
  keyUnique : ∀ p ∈ m, ∀ q ∈ m, p.1 = q.1 → p = q
  valLt : ∀ p ∈ m, p.2 < i
  valUnique : ∀ p ∈ m, ∀ q ∈ m, p.2 = q.2 → p = q

theorem mapInv_nil : MapInv [] 0 :=
  ⟨by simp, by simp, by simp⟩

theorem MapInv.mono {m : List (String × Nat)} {i j : Nat} (h : MapInv m i) (hij : i ≤ j) :
    MapInv m j :=
  ⟨h.keyUnique, fun p hp => lt_of_lt_of_le (h.valLt p hp) hij, h.valUnique⟩

theorem mapInv_insert {m : List (String × Nat)} {i : Nat} {k : String}
    (h : MapInv m i) : MapInv (mapInsert m k i) (i + 1) := by
  have hmem : ∀ p : String × Nat, p ∈ mapInsert m k i →
      (p.1 = k ∧ p.2 = i) ∨ (p ∈ m ∧ p.1 ≠ k) := by
    rintro ⟨a, b⟩ hp
    rcases mem_mapInsert.mp hp with ⟨h1, h2⟩ | ⟨h1, h2⟩
    · exact Or.inl ⟨h1, h2⟩
    · exact Or.inr ⟨h1, h2⟩
  refine ⟨?_, ?_, ?_⟩
  · rintro p hp q hq hkey
    rcases hmem p hp with ⟨hp1, hp2⟩ | ⟨hp1, hp2⟩ <;>
      rcases hmem q hq with ⟨hq1, hq2⟩ | ⟨hq1, hq2⟩
    · cases p; cases q; simp_all
    · exact absurd (hkey.symm.trans hp1) hq2
    · exact absurd (hkey.trans hq1) hp2
    · exact h.keyUnique p hp1 q hq1 hkey
  · rintro p hp
    rcases hmem p hp with ⟨_, hp2⟩ | ⟨hp1, _⟩
    · omega
    · exact lt_trans (h.valLt p hp1) (by omega)
  · rintro p hp q hq hval
    rcases hmem p hp with ⟨hp1, hp2⟩ | ⟨hp1, hp2⟩ <;>
      rcases hmem q hq with ⟨hq1, hq2⟩ | ⟨hq1, hq2⟩
    · cases p; cases q; simp_all
    · have := h.valLt q hq1; omega
    · have := h.valLt p hp1; omega
    · exact h.valUnique p hp1 q hq1 hval

theorem find?_val_of_mem {m : List (String × Nat)} {k : String} {v : Nat}
    (hu : ∀ p ∈ m, ∀ q ∈ m, p.2 = q.2 → p = q) (hm : (k, v) ∈ m) :
    m.find? (fun p => p.2 == v) = some (k, v) := by
  induction m with
  | nil => simp at hm
  | cons p rest ih =>
    by_cases hp : p.2 = v
    · have : p = (k, v) := hu p (by simp) (k, v) hm (by simp [hp])
      simp [List.find?, this]
    · have hmem : (k, v) ∈ rest := by
        rcases List.mem_cons.mp hm with h | h
        · exact absurd (congrArg Prod.snd h.symm) hp
        · exact h
      have hr : rest.find? (fun p => p.2 == v) = some (k, v) :=
        ih (fun a ha b hb => hu a (List.mem_cons_of_mem _ ha) b (List.mem_cons_of_mem _ hb)) hmem
      have hpb : (p.2 == v) = false := by simpa using hp
      simp [List.find?, hpb, hr]

theorem lookupNameOf_of_mem {m : List (String × Nat)} {k : String} {v : Nat}
    (hu : ∀ p ∈ m, ∀ q ∈ m, p.2 = q.2 → p = q) (hm : (k, v) ∈ m) :
    lookupNameOf m v = k := by
  unfold lookupNameOf
  rw [find?_val_of_mem hu hm]

theorem lookupNameOf_of_not_mem {m : List (String × Nat)} {v : Nat}
    (hm : ∀ p ∈ m, p.2 ≠ v) : lookupNameOf m v = "" := by
  unfold lookupNameOf
  have : m.find? (fun p => p.2 == v) = none :=
    List.find?_eq_none.mpr (fun p hp => by simpa using hm p hp)
  rw [this]

/-! ### The wanted-name probe always finds a free name

The Go loop at config.go lines 176–184 searches `base`, `base.0`, `base.1`, …
for a name not yet in the map.  The candidates are pairwise distinct strings,
so among the first `(size of map) + 1` of them one is always free. -/

theorem reprDigits_ne_nil (n : Nat) : reprDigits n ≠ [] := by
  unfold reprDigits
  by_cases h0 : n = 0
  · simp [h0]
  · rw [if_neg h0]
    obtain ⟨m, rfl⟩ : ∃ m, n = m + 1 := ⟨n - 1, by omega⟩
    simp [natToRevDigits]

theorem natRepr_length_pos (n : Nat) : 0 < (natRepr n).length := by
  unfold natRepr
  have h : ((reprDigits n).reverse.map digitCharOf).asString.length
      = ((reprDigits n).reverse.map digitCharOf).length := by
    simp [List.asString, String.length]
  rw [h, List.length_map, List.length_reverse]
  exact List.length_pos.mpr (reprDigits_ne_nil n)

theorem natRepr_data_inj {a b : Nat} (h : (natRepr a).data = (natRepr b).data) : a = b :=
  natRepr_inj (String.ext h)

theorem candidate_length (base : String) (j : Nat) :
    (candidate base (j + 1)).length = base.length + 1 + (natRepr j).length := by
  simp only [candidate, String.length_append]
  rfl

theorem candidate_inj (base : String) : Function.Injective (candidate base) := by
  intro a b h
  match a, b with
  | 0, 0 => rfl
  | 0, j + 1 =>
    exfalso
    have hl := congrArg String.length h
    rw [candidate_length] at hl
    have := natRepr_length_pos j
    simp only [candidate] at hl
    omega
  | i + 1, 0 =>
    exfalso
    have hl := congrArg String.length h
    rw [candidate_length] at hl
    have := natRepr_length_pos i
    simp only [candidate] at hl
    omega
  | i + 1, j + 1 =>
    have hd := congrArg String.data h
    simp only [candidate, String.data_append] at hd
    have := List.append_cancel_left hd
    rw [natRepr_data_inj this]

theorem hasKey_imp_mem_keys {m : List (String × Nat)} {k : String}
    (h : hasKey m k = true) : k ∈ m.map Prod.fst := by
  obtain ⟨v, hv⟩ := hasKey_iff_mem.mp h
  exact List.mem_map.mpr ⟨(k, v), hv, rfl⟩

theorem exists_free_candidate (m : List (String × Nat)) (base : String) :
    ∃ j ≤ m.length, hasKey m (candidate base j) = false := by
  by_contra hall
  push_neg at hall
  have hall' : ∀ j ≤ m.length, hasKey m (candidate base j) = true := by
    intro j hj
    have := hall j hj
    revert this
    cases hasKey m (candidate base j) <;> simp
  have hsub : ((List.range (m.length + 1)).map (candidate base)) ⊆ m.map Prod.fst := by
    intro x hx
    obtain ⟨j, hj, rfl⟩ := List.mem_map.mp hx
    exact hasKey_imp_mem_keys (hall' j (by simpa [Nat.lt_succ_iff] using hj))
  have hnd : ((List.range (m.length + 1)).map (candidate base)).Nodup :=
    (List.nodup_range (m.length + 1)).map (candidate_inj base)
  have hle := (hnd.subperm hsub).length_le
  simp at hle

theorem probeFrom_free {m : List (String × Nat)} {base : String} :
    ∀ (fuel i : Nat), (∃ j, i ≤ j ∧ j < i + fuel ∧ hasKey m (candidate base j) = false) →
      hasKey m (probeFrom m base fuel i) = false := by
  intro fuel
  induction fuel with
  | zero => rintro i ⟨j, h1, h2, _⟩; omega
  | succ fuel ih =>
    rintro i ⟨j, h1, h2, h3⟩
    unfold probeFrom
    by_cases hc : hasKey m (candidate base i) = true
    · rw [if_pos hc]
      refine ih (i + 1) ⟨j, ?_, by omega, h3⟩
      rcases Nat.eq_or_lt_of_le h1 with rfl | hlt
      · rw [h3] at hc; exact absurd hc (by simp)
      · omega
    · rw [if_neg hc]
      revert hc
      cases hasKey m (candidate base i) <;> simp

theorem probeName_free (m : List (String × Nat)) (base : String) :
    hasKey m (probeName m base) = false := by
  obtain ⟨j, hj, hfree⟩ := exists_free_candidate m base
  exact probeFrom_free (m.length + 1) 0 ⟨j, by omega, by omega, hfree⟩

/-! ### Structure of the assignment loop -/

theorem mapInsert_self_mem (m : List (String × Nat)) (k : String) (v : Nat) :
    (k, v) ∈ mapInsert m k v :=
  mem_mapInsert.mpr (Or.inl ⟨rfl, rfl⟩)

theorem mapInv_assignStep {m : List (String × Nat)} {i : Nat} {n : NodeRec}
    (h : MapInv m i) : MapInv (assignStep m i n) (i + 1) := by
  unfold assignStep
  cases n.dbNode.tag <;> exact mapInv_insert h

theorem buildGo_append (m : List (String × Nat)) (i : Nat) :
    ∀ (l₁ l₂ : List NodeRec),
      buildGo m i (l₁ ++ l₂) = buildGo (buildGo m i l₁) (i + l₁.length) l₂ := by
  intro l₁
  induction l₁ generalizing m i with
  | nil => intro l₂; simp [buildGo]
  | cons n rest ih =>
    intro l₂
    simp only [List.cons_append, buildGo]
    show buildGo (assignStep m i n) (i + 1) (rest ++ l₂) = _
    rw [ih]
    congr 1
    simp only [List.length_cons]
    omega

theorem buildGo_mapInv : ∀ (l : List NodeRec) (m : List (String × Nat)) (i : Nat),
    MapInv m i → MapInv (buildGo m i l) (i + l.length) := by
  intro l
  induction l with
  | nil => intro m i h; simpa [buildGo] using h
  | cons n rest ih =>
    intro m i h
    have := ih (assignStep m i n) (i + 1) (mapInv_assignStep h)
    simpa [buildGo, Nat.add_comm, Nat.add_assoc, Nat.add_left_comm] using this

theorem buildGo_persist {k : String} {v : Nat} :
    ∀ (l : List NodeRec) (m : List (String × Nat)) (i : Nat),
      (k, v) ∈ m → (∀ n ∈ l, ∀ t, n.dbNode.tag = some t → t ≠ k) →
      (k, v) ∈ buildGo m i l := by
  intro l
  induction l with
  | nil => intro m i hm _; simpa [buildGo] using hm
  | cons n rest ih =>
    intro m i hm hl
    simp only [buildGo]
    refine ih (assignStep m i n) (i + 1) ?_ (fun p hp => hl p (List.mem_cons_of_mem _ hp))
    unfold assignStep
    cases htag : n.dbNode.tag with
    | some t =>
      have hne : k ≠ t := (hl n (by simp) t htag).symm
      exact mem_mapInsert.mpr (Or.inr ⟨hm, hne⟩)
    | none =>
      have hfree := probeName_free m (baseNameOf n.dbNode)
      have hkm : hasKey m k = true := hasKey_iff_mem.mpr ⟨v, hm⟩
      have hne : k ≠ probeName m (baseNameOf n.dbNode) := by
        intro he; rw [he] at hkm; rw [hfree] at hkm; exact absurd hkm (by simp)
      exact mem_mapInsert.mpr (Or.inr ⟨hm, hne⟩)

theorem buildGo_not_val {v : Nat} :
    ∀ (l : List NodeRec) (m : List (String × Nat)) (i : Nat),
      v < i → (∀ p ∈ m, p.2 ≠ v) → ∀ p ∈ buildGo m i l, p.2 ≠ v := by
  intro l
  induction l with
  | nil => intro m i _ hm; simpa [buildGo] using hm
  | cons n rest ih =>
    intro m i hvi hm
    simp only [buildGo]
    refine ih (assignStep m i n) (i + 1) (by omega) ?_
    intro p hp
    have hmem : (p.1, p.2) ∈ assignStep m i n := by simpa using hp
    unfold assignStep at hmem
    have hstep : ∀ k, (p.1, p.2) ∈ mapInsert m k i → p.2 ≠ v := by
      intro k hk
      rcases mem_mapInsert.mp hk with ⟨_, h2⟩ | ⟨h1, _⟩
      · omega
      · exact hm _ h1
    cases htag : n.dbNode.tag with
    | some t => rw [htag] at hmem; exact hstep t hmem
    | none => rw [htag] at hmem; exact hstep _ hmem

theorem applyNames_length (m : List (String × Nat)) :
    ∀ (i : Nat) (l : List NodeRec), (applyNames m i l).length = l.length := by
  intro i l
  induction l generalizing i with
  | nil => simp [applyNames]
  | cons n rest ih => simp [applyNames, ih]

theorem applyNames_get (m : List (String × Nat)) :
    ∀ (l : List NodeRec) (i j : Nat) (hj : j < l.length)
      (hj2 : j < (applyNames m i l).length),
      (applyNames m i l).get ⟨j, hj2⟩
        = { l.get ⟨j, hj⟩ with uniqueName := lookupNameOf m (i + j) } := by
  intro l
  induction l with
  | nil => intro i j hj _; simp at hj
  | cons n rest ih =>
    intro i j hj hj2
    cases j with
    | zero => simp [applyNames, List.get]
    | succ jj =>
      have hjr : jj < rest.length := by simpa [Nat.succ_lt_succ_iff] using hj
      have hjr2 : jj < (applyNames m (i + 1) rest).length := by
        rw [applyNames_length]; exact hjr
      have := ih (i + 1) jj hjr hjr2
      simp only [applyNames, List.get, this]
      congr 2
      omega

/-! ### Tagged nodes keep their tag as name

`TagDistinct` is the presumption of config.go line 160 ("node.Tag is unique"):
no two records carry the same explicit tag. -/

/-- Two db records do not carry the same explicit tag. -/
def TagDistinct (a b : DbNode) : Prop :=
  a.tag.isSome = true → b.tag.isSome = true → a.tag ≠ b.tag

instance : ∀ a b, Decidable (TagDistinct a b) := fun _ _ => by
  unfold TagDistinct; infer_instance

/-- The entries the tagged-nodes phase of the loop appends: each node's tag,
paired with its position. -/
def tagEntries : List NodeRec → Nat → List (String × Nat)
  | [], _ => []
  | n :: rest, i => (n.dbNode.tag.getD "", i) :: tagEntries rest (i + 1)

theorem mapInsert_of_not_hasKey {m : List (String × Nat)} {k : String} {v : Nat}
    (h : hasKey m k = false) : mapInsert m k v = m ++ [(k, v)] := by
  unfold mapInsert
  rw [if_neg (by simp [h])]

theorem hasKey_append {m₁ m₂ : List (String × Nat)} {k : String} :
    hasKey (m₁ ++ m₂) k = (hasKey m₁ k || hasKey m₂ k) := by
  simp [hasKey, List.any_append]

theorem buildGo_tagged_block :
    ∀ (l : List NodeRec) (m : List (String × Nat)) (i : Nat),
      (∀ n ∈ l, n.dbNode.tag.isSome = true) →
      (∀ n ∈ l, ∀ t, n.dbNode.tag = some t → hasKey m t = false) →
      l.Pairwise (fun a b => ∀ t, a.dbNode.tag = some t → b.dbNode.tag ≠ some t) →
      buildGo m i l = m ++ tagEntries l i := by
  intro l
  induction l with
  | nil => intro m i _ _ _; simp [buildGo, tagEntries]
  | cons n rest ih =>
    intro m i hall hfresh hdist
    obtain ⟨t, ht⟩ := Option.isSome_iff_exists.mp (hall n (by simp))
    have hstep : assignStep m i n = m ++ [(t, i)] := by
      unfold assignStep
      rw [ht]
      exact mapInsert_of_not_hasKey (hfresh n (by simp) t ht)
    have hdist' := List.pairwise_cons.mp hdist
    have hfresh' : ∀ p ∈ rest, ∀ u, p.dbNode.tag = some u → hasKey (m ++ [(t, i)]) u = false := by
      intro p hp u hu
      rw [hasKey_append]
      have h1 : hasKey m u = false := hfresh p (List.mem_cons_of_mem _ hp) u hu
      have h2 : hasKey [(t, i)] u = false := by
        have : u ≠ t := by
          intro he
          exact hdist'.1 p hp t ht (he ▸ hu)
        simp only [hasKey, List.any_cons, List.any_nil, Bool.or_false]
        simpa using fun he => absurd he.symm this
      simp [h1, h2]
    have := ih (m ++ [(t, i)]) (i + 1) (fun p hp => hall p (List.mem_cons_of_mem _ hp))
      hfresh' hdist'.2
    simp only [buildGo, hstep, this, tagEntries, ht, Option.getD_some, List.append_assoc,
      List.cons_append, List.nil_append]

theorem buildGo_untagged_block :
    ∀ (l : List NodeRec) (m : List (String × Nat)) (i : Nat),
      (∀ n ∈ l, n.dbNode.tag = none) →
      ∃ ext, buildGo m i l = m ++ ext ∧
        ∀ j, i ≤ j → j < i + l.length → ∃ k, (k, j) ∈ ext := by
  intro l
  induction l with
  | nil =>
    intro m i _
    exact ⟨[], by simp [buildGo], fun j h1 h2 => by simp at h2; omega⟩
  | cons n rest ih =>
    intro m i hall
    have hstep : assignStep m i n = m ++ [(probeName m (baseNameOf n.dbNode), i)] := by
      unfold assignStep
      rw [hall n (by simp)]
      exact mapInsert_of_not_hasKey (probeName_free m (baseNameOf n.dbNode))
    obtain ⟨ext, hext, hcov⟩ :=
      ih (m ++ [(probeName m (baseNameOf n.dbNode), i)]) (i + 1)
        (fun p hp => hall p (List.mem_cons_of_mem _ hp))
    refine ⟨(probeName m (baseNameOf n.dbNode), i) :: ext, ?_, ?_⟩
    · simp only [buildGo, hstep, hext, List.append_assoc, List.cons_append, List.nil_append]
    · intro j h1 h2
      rcases Nat.eq_or_lt_of_le h1 with rfl | hlt
      · exact ⟨probeName m (baseNameOf n.dbNode), by simp⟩
      · obtain ⟨k, hk⟩ := hcov j hlt (by simp at h2 ⊢; omega)
        exact ⟨k, List.mem_cons_of_mem _ hk⟩

theorem tagEntries_covers :
    ∀ (l : List NodeRec) (i j : Nat), j < l.length → ∃ k, (k, i + j) ∈ tagEntries l i := by
  intro l
  induction l with
  | nil => intro i j hj; simp at hj
  | cons n rest ih =>
    intro i j hj
    cases j with
    | zero => exact ⟨n.dbNode.tag.getD "", by simp [tagEntries]⟩
    | succ jj =>
      obtain ⟨k, hk⟩ := ih (i + 1) jj (by simp at hj; omega)
      refine ⟨k, ?_⟩
      have : i + (jj + 1) = i + 1 + jj := by omega
      rw [this]
      exact List.mem_cons_of_mem _ hk

theorem sortByTag_pairwise_tagDistinct (ns : List NodeRec)
    (h : (ns.map (fun n => n.dbNode)).Pairwise TagDistinct) :
    ((sortByTag ns).map (fun n => n.dbNode)).Pairwise TagDistinct := by
  rw [List.pairwise_map] at h ⊢
  unfold sortByTag
  rw [List.pairwise_append]
  refine ⟨h.sublist (List.filter_sublist ns), h.sublist (List.filter_sublist ns), ?_⟩
  intro a _ b hb
  intro _ hbs
  exfalso
  have hbn : b.dbNode.tag.isNone = true := (List.mem_filter.mp hb).2
  rw [Option.isNone_iff_eq_none.mp hbn] at hbs
  simp at hbs

theorem buildGo_split (s : List NodeRec) (i : Nat) (hi : i < s.length) :
    buildGo [] 0 s
      = buildGo (assignStep (buildGo [] 0 (s.take i)) i (s.get ⟨i, hi⟩)) (i + 1)
          (s.drop (i + 1)) := by
  have htake : (s.take i).length = i := by
    rw [List.length_take]; omega
  have hsplit : s = s.take i ++ (s.get ⟨i, hi⟩ :: s.drop (i + 1)) := by
    conv_lhs => rw [← List.take_append_drop i s]
    congr 1
    rw [List.drop_eq_getElem_cons hi]
    simp [List.get_eq_getElem]
  conv_lhs => rw [hsplit]
  rw [buildGo_append, htake]
  simp only [Nat.zero_add, buildGo]

theorem buildGo_tagged_mem_of_later (s : List NodeRec) (i : Nat) (hi : i < s.length)
    (t : String) (ht : (s.get ⟨i, hi⟩).dbNode.tag = some t)
    (hlater : ∀ p ∈ s.drop (i + 1), ∀ u, p.dbNode.tag = some u → u ≠ t) :
    (t, i) ∈ buildGo [] 0 s := by
  rw [buildGo_split s i hi]
  have hstep : (t, i) ∈ assignStep (buildGo [] 0 (s.take i)) i (s.get ⟨i, hi⟩) := by
    unfold assignStep
    rw [ht]
    exact mapInsert_self_mem _ t i
  exact buildGo_persist _ _ _ hstep hlater

theorem buildGo_tagged_mem (s : List NodeRec)
    (hs : (s.map (fun n => n.dbNode)).Pairwise TagDistinct)
    (i : Nat) (hi : i < s.length) (t : String)
    (ht : (s.get ⟨i, hi⟩).dbNode.tag = some t) :
    (t, i) ∈ buildGo [] 0 s := by
  refine buildGo_tagged_mem_of_later s i hi t ht ?_
  intro p hp u hu hut
  rw [hut] at hu
  obtain ⟨j, hj, hpj⟩ := List.mem_iff_getElem.mp hp
  have hj2 : i + 1 + j < s.length := by
    have := List.length_drop (i + 1) s
    omega
  have hpg : p = s[i + 1 + j] := by
    rw [← hpj]
    exact List.getElem_drop s
  have hpair := List.pairwise_iff_getElem.mp (List.pairwise_map.mp hs) i (i + 1 + j)
    hi hj2 (by omega)
  have hip : s[i].dbNode.tag = some t := by
    simpa [List.get_eq_getElem] using ht
  have hjp : s[i + 1 + j].dbNode.tag = some t := by rw [← hpg]; exact hu
  exact hpair (by simp [hip]) (by simp [hjp]) (hip.trans hjp.symm)

theorem buildGo_sorted_covers (ns : List NodeRec)
    (hdist : (ns.map (fun n => n.dbNode)).Pairwise TagDistinct) :
    ∀ j, j < (sortByTag ns).length → ∃ k, (k, j) ∈ buildGo [] 0 (sortByTag ns) := by
  intro j hj
  have hUtag : ∀ n ∈ ns.filter (fun n => n.dbNode.tag.isNone), n.dbNode.tag = none := by
    intro n hn
    exact Option.isNone_iff_eq_none.mp (List.mem_filter.mp hn).2
  have hTtag : ∀ n ∈ ns.filter (fun n => n.dbNode.tag.isSome), n.dbNode.tag.isSome = true :=
    fun n hn => (List.mem_filter.mp hn).2
  have hTdist : (ns.filter (fun n => n.dbNode.tag.isSome)).Pairwise
      (fun a b => ∀ t, a.dbNode.tag = some t → b.dbNode.tag ≠ some t) := by
    have h1 : ((ns.filter (fun n => n.dbNode.tag.isSome)).map
        (fun n => n.dbNode)).Pairwise TagDistinct :=
      hdist.sublist ((List.filter_sublist ns).map (fun n => n.dbNode))
    refine (List.pairwise_map.mp h1).imp ?_
    intro a b hab t hat hbt
    exact hab (by simp [hat]) (by simp [hbt]) (hat.trans hbt.symm)
  have hT : buildGo [] 0 (ns.filter (fun n => n.dbNode.tag.isSome))
      = tagEntries (ns.filter (fun n => n.dbNode.tag.isSome)) 0 := by
    have := buildGo_tagged_block (ns.filter (fun n => n.dbNode.tag.isSome)) [] 0
      hTtag (fun n _ t _ => rfl) hTdist
    simpa using this
  unfold sortByTag at hj ⊢
  rw [buildGo_append]
  obtain ⟨ext, hext, hcov⟩ :=
    buildGo_untagged_block (ns.filter (fun n => n.dbNode.tag.isNone))
      (buildGo [] 0 (ns.filter (fun n => n.dbNode.tag.isSome)))
      (0 + (ns.filter (fun n => n.dbNode.tag.isSome)).length) hUtag
  rw [hext]
  rw [List.length_append] at hj
  by_cases hcase : j < (ns.filter (fun n => n.dbNode.tag.isSome)).length
  · obtain ⟨k, hk⟩ := tagEntries_covers (ns.filter (fun n => n.dbNode.tag.isSome)) 0 j hcase
    rw [Nat.zero_add] at hk
    exact ⟨k, List.mem_append.mpr (Or.inl (hT ▸ hk))⟩
  · obtain ⟨k, hk⟩ := hcov j (by omega) (by omega)
    exact ⟨k, List.mem_append.mpr (Or.inr hk)⟩

theorem uniquefy_length (ns : List NodeRec) :
    (uniquefyNodesName ns).length = (sortByTag ns).length := by
  unfold uniquefyNodesName
  exact applyNames_length _ _ _

theorem uniquefy_get (ns : List NodeRec) (j : Nat) (hj : j < (uniquefyNodesName ns).length)
    (hjs : j < (sortByTag ns).length) :
    (uniquefyNodesName ns).get ⟨j, hj⟩
      = { (sortByTag ns).get ⟨j, hjs⟩ with
          uniqueName := lookupNameOf (buildGo [] 0 (sortByTag ns)) j } := by
  unfold uniquefyNodesName at hj ⊢
  have := applyNames_get (buildGo [] 0 (sortByTag ns)) (sortByTag ns) 0 j hjs hj
  simpa using this

/-- Master lemma behind the naming guarantees: with pairwise-distinct tags,
the node at sorted position `i` carrying tag `t` is named exactly `t`, and no
other position receives the name `t`. -/
theorem uniquefy_tagged_name (ns : List NodeRec)
    (hdist : (ns.map (fun n => n.dbNode)).Pairwise TagDistinct)
    (i : Nat) (hi : i < (uniquefyNodesName ns).length) (t : String)
    (ht : ((uniquefyNodesName ns).get ⟨i, hi⟩).dbNode.tag = some t) :
    ((uniquefyNodesName ns).get ⟨i, hi⟩).uniqueName = t ∧
      ∀ (j : Nat) (hj : j < (uniquefyNodesName ns).length), j ≠ i →
        ((uniquefyNodesName ns).get ⟨j, hj⟩).uniqueName ≠ t := by
  have his : i < (sortByTag ns).length := by rw [← uniquefy_length ns]; exact hi
  have hgi := uniquefy_get ns i hi his
  have hts : ((sortByTag ns).get ⟨i, his⟩).dbNode.tag = some t := by
    rw [hgi] at ht; exact ht
  have hsorted := sortByTag_pairwise_tagDistinct ns hdist
  have hmem : (t, i) ∈ buildGo [] 0 (sortByTag ns) :=
    buildGo_tagged_mem (sortByTag ns) hsorted i his t hts
  have hinv : MapInv (buildGo [] 0 (sortByTag ns)) (0 + (sortByTag ns).length) :=
    buildGo_mapInv (sortByTag ns) [] 0 mapInv_nil
  constructor
  · rw [hgi]
    show lookupNameOf (buildGo [] 0 (sortByTag ns)) i = t
    exact lookupNameOf_of_mem hinv.valUnique hmem
  · intro j hj hne
    have hjs : j < (sortByTag ns).length := by rw [← uniquefy_length ns]; exact hj
    have hgj := uniquefy_get ns j hj hjs
    obtain ⟨k, hk⟩ := buildGo_sorted_covers ns hdist j hjs
    have hlk : lookupNameOf (buildGo [] 0 (sortByTag ns)) j = k :=
      lookupNameOf_of_mem hinv.valUnique hk
    rw [hgj]
    show lookupNameOf (buildGo [] 0 (sortByTag ns)) j ≠ t
    rw [hlk]
    intro hkt
    rw [hkt] at hk
    have heq := hinv.keyUnique (t, i) hmem (t, j) hk rfl
    simp only [Prod.mk.injEq, true_and] at heq
    exact hne heq.symm

/-- Master lemma for violated tag uniqueness: when exactly the sorted
positions `i < j` carry tag `t`, the later one (`j`, the map's last write)
is named `t` and the earlier one keeps the zero value `""`. -/
theorem uniquefy_dup_tag (ns : List NodeRec) (i j : Nat)
    (hi : i < (uniquefyNodesName ns).length) (hj : j < (uniquefyNodesName ns).length)
    (hij : i < j) (t : String)
    (hti : ((uniquefyNodesName ns).get ⟨i, hi⟩).dbNode.tag = some t)
    (htj : ((uniquefyNodesName ns).get ⟨j, hj⟩).dbNode.tag = some t)
    (honly : ∀ (k : Nat) (hk : k < (uniquefyNodesName ns).length),
      ((uniquefyNodesName ns).get ⟨k, hk⟩).dbNode.tag = some t → k = i ∨ k = j) :
    ((uniquefyNodesName ns).get ⟨j, hj⟩).uniqueName = t ∧
      ((uniquefyNodesName ns).get ⟨i, hi⟩).uniqueName = "" := by
  have his : i < (sortByTag ns).length := by rw [← uniquefy_length ns]; exact hi
  have hjs : j < (sortByTag ns).length := by rw [← uniquefy_length ns]; exact hj
  have hgi := uniquefy_get ns i hi his
  have hgj := uniquefy_get ns j hj hjs
  have hti' : ((sortByTag ns).get ⟨i, his⟩).dbNode.tag = some t := by rw [hgi] at hti; exact hti
  have htj' : ((sortByTag ns).get ⟨j, hjs⟩).dbNode.tag = some t := by rw [hgj] at htj; exact htj
  have honly' : ∀ (k : Nat) (hks : k < (sortByTag ns).length),
      ((sortByTag ns).get ⟨k, hks⟩).dbNode.tag = some t → k = i ∨ k = j := by
    intro k hks hkt
    have hk : k < (uniquefyNodesName ns).length := by rw [uniquefy_length ns]; exact hks
    refine honly k hk ?_
    rw [uniquefy_get ns k hk hks]
    simpa [List.get_eq_getElem] using hkt
  have hinv : MapInv (buildGo [] 0 (sortByTag ns)) (0 + (sortByTag ns).length) :=
    buildGo_mapInv (sortByTag ns) [] 0 mapInv_nil
  -- the last write at key `t` is `(t, j)`, and it survives to the end
  have hmemj : (t, j) ∈ buildGo [] 0 (sortByTag ns) := by
    refine buildGo_tagged_mem_of_later (sortByTag ns) j hjs t htj' ?_
    intro p hp u hu hut
    rw [hut] at hu
    obtain ⟨d, hd, hpd⟩ := List.mem_iff_getElem.mp hp
    have hd2 : j + 1 + d < (sortByTag ns).length := by
      have := List.length_drop (j + 1) (sortByTag ns)
      omega
    have hpg : p = (sortByTag ns)[j + 1 + d] := by
      rw [← hpd]; exact List.getElem_drop _
    rcases honly' (j + 1 + d) hd2 (by simp only [List.get_eq_getElem]; rw [← hpg]; exact hu)
      with h | h <;> omega
  -- the value `i` disappears from the map at step `j` and never returns
  have hMinvTake : MapInv (buildGo [] 0 ((sortByTag ns).take j)) j := by
    have := buildGo_mapInv ((sortByTag ns).take j) [] 0 mapInv_nil
    have hlen : ((sortByTag ns).take j).length = j := by rw [List.length_take]; omega
    rw [hlen] at this
    simpa using this
  have hmemi : (t, i) ∈ buildGo [] 0 ((sortByTag ns).take j) := by
    have hitake : i < ((sortByTag ns).take j).length := by rw [List.length_take]; omega
    have hgt : ((sortByTag ns).take j).get ⟨i, hitake⟩ = (sortByTag ns).get ⟨i, his⟩ := by
      simp [List.get_eq_getElem, List.getElem_take]
    refine buildGo_tagged_mem_of_later ((sortByTag ns).take j) i hitake t
      (by rw [hgt]; exact hti') ?_
    intro p hp u hu hut
    rw [hut] at hu
    obtain ⟨d, hd, hpd⟩ := List.mem_iff_getElem.mp hp
    have hdlen : ((sortByTag ns).take j).length = j := by rw [List.length_take]; omega
    have hd2 : i + 1 + d < j := by
      rw [List.length_drop, hdlen] at hd
      omega
    have hpg : p = (sortByTag ns)[i + 1 + d] := by
      rw [← hpd]
      have h1 : (((sortByTag ns).take j).drop (i + 1))[d] = ((sortByTag ns).take j)[i + 1 + d] :=
        List.getElem_drop _
      rw [h1]
      exact List.getElem_take _
    rcases honly' (i + 1 + d) (by omega) (by simp only [List.get_eq_getElem]; rw [← hpg]; exact hu)
      with h | h <;> omega
  have hsplit := buildGo_split (sortByTag ns) j hjs
  have hstepj : assignStep (buildGo [] 0 ((sortByTag ns).take j)) j ((sortByTag ns).get ⟨j, hjs⟩)
      = mapInsert (buildGo [] 0 ((sortByTag ns).take j)) t j := by
    unfold assignStep
    rw [htj']
  have hnoval : ∀ p ∈ mapInsert (buildGo [] 0 ((sortByTag ns).take j)) t j, p.2 ≠ i := by
    rintro ⟨a, b⟩ hp
    rcases mem_mapInsert.mp hp with ⟨_, h2⟩ | ⟨h1, h2⟩
    · omega
    · intro hbi
      have : (a, b) = (t, i) := hMinvTake.valUnique (a, b) h1 (t, i) hmemi (by simpa using hbi)
      exact h2 (congrArg Prod.fst this)
  have hnovalM : ∀ p ∈ buildGo [] 0 (sortByTag ns), p.2 ≠ i := by
    rw [hsplit, hstepj]
    exact buildGo_not_val _ _ _ (by omega) hnoval
  constructor
  · rw [hgj]
    show lookupNameOf (buildGo [] 0 (sortByTag ns)) j = t
    exact lookupNameOf_of_mem hinv.valUnique hmemj
  · rw [hgi]
    show lookupNameOf (buildGo [] 0 (sortByTag ns)) i = ""
    exact lookupNameOf_of_not_mem hnovalM

/-! ### Lemmas about `deduplicateNodes` -/

theorem countP_map_link (f : NodeRec → NodeRec)
    (hf : ∀ m, (f m).dbNode.link = m.dbNode.link) (acc : List NodeRec) (L : String) :
    (acc.map f).countP (fun n => n.dbNode.link == L)
      = acc.countP (fun n => n.dbNode.link == L) := by
  induction acc with
  | nil => simp
  | cons a l ih => simp [List.countP_cons, hf a, ih]

theorem dedupInsert_link_preserved (_acc : List NodeRec) (n : NodeRec) :
    ∀ m : NodeRec,
      ((if (m.dbNode.link == n.dbNode.link) = true then
        { m with groups := m.groups ++ n.groups } else m)).dbNode.link = m.dbNode.link := by
  intro m
  by_cases h : (m.dbNode.link == n.dbNode.link) = true <;> simp [h]

theorem dedupFold_countP (L : String) :
    ∀ (rest acc : List NodeRec),
      (dedupFold acc rest).countP (fun n => n.dbNode.link == L)
        = if acc.countP (fun n => n.dbNode.link == L) ≠ 0
          then acc.countP (fun n => n.dbNode.link == L)
          else min 1 (rest.countP (fun n => n.dbNode.link == L)) := by
  intro rest
  induction rest with
  | nil =>
    intro acc
    show acc.countP _ = _
    by_cases h : acc.countP (fun n => n.dbNode.link == L) ≠ 0
    · rw [if_pos h]
    · rw [if_neg h]
      simp only [List.countP_nil]
      omega
  | cons n rs ih =>
    intro acc
    show (dedupFold (dedupInsert acc n) rs).countP _ = _
    rw [ih]
    unfold dedupInsert
    by_cases hAny : acc.any (fun m => m.dbNode.link == n.dbNode.link) = true
    · rw [if_pos hAny]
      rw [countP_map_link _ (dedupInsert_link_preserved acc n)]
      by_cases hnl : n.dbNode.link = L
      · have hcnt : acc.countP (fun m => m.dbNode.link == L) ≠ 0 := by
          obtain ⟨a, ha, hpa⟩ := List.any_eq_true.mp hAny
          have : a.dbNode.link = L := by
            rw [← hnl]; exact beq_iff_eq.mp hpa
          intro h0
          exact absurd this (by simpa using List.countP_eq_zero.mp h0 a ha)
        rw [if_pos hcnt, if_pos hcnt]
      · rw [List.countP_cons_of_neg _ _ (by simpa using hnl)]
    · rw [if_neg hAny]
      by_cases hnl : n.dbNode.link = L
      · have hcnt : acc.countP (fun m => m.dbNode.link == L) = 0 := by
          rw [List.countP_eq_zero]
          intro a ha
          simp only [beq_iff_eq]
          intro haL
          exact hAny (List.any_eq_true.mpr ⟨a, ha, by simp [haL, hnl]⟩)
        have happ : (acc ++ [n]).countP (fun m => m.dbNode.link == L) = 1 := by
          rw [List.countP_append, hcnt]
          simp [hnl]
        rw [happ]
        rw [if_pos (by omega), if_neg (by omega)]
        rw [List.countP_cons_of_pos _ _ (by simpa using hnl)]
        omega
      · have happ : (acc ++ [n]).countP (fun m => m.dbNode.link == L)
            = acc.countP (fun m => m.dbNode.link == L) := by
          rw [List.countP_append]
          simp [hnl]
        rw [happ, List.countP_cons_of_neg _ _ (by simpa using hnl)]

theorem dedupFold_groups_acc (L : String) :
    ∀ (rest acc : List NodeRec) (a : NodeRec),
      a ∈ acc → a.dbNode.link = L →
      (∀ p ∈ acc, p.dbNode.link = L → p = a) →
      ∀ e ∈ dedupFold acc rest, e.dbNode.link = L →
        e.dbNode = a.dbNode ∧
          e.groups = a.groups
            ++ (rest.filter (fun n => n.dbNode.link == L)).flatMap (fun n => n.groups) := by
  intro rest
  induction rest with
  | nil =>
    intro acc a ha haL huniq e he heL
    have : e = a := huniq e he heL
    subst this
    simp [dedupFold] at he ⊢
  | cons n rs ih =>
    intro acc a ha haL huniq e he heL
    rw [show dedupFold acc (n :: rs) = dedupFold (dedupInsert acc n) rs from rfl] at he
    by_cases hnl : n.dbNode.link = L
    · have hAny : acc.any (fun m => m.dbNode.link == n.dbNode.link) = true :=
        List.any_eq_true.mpr ⟨a, ha, by simp [haL, hnl]⟩
      have hins : dedupInsert acc n = acc.map (fun m =>
          if (m.dbNode.link == n.dbNode.link) = true then
            { m with groups := m.groups ++ n.groups } else m) := by
        unfold dedupInsert
        rw [if_pos hAny]
      set f : NodeRec → NodeRec := fun m =>
        if (m.dbNode.link == n.dbNode.link) = true then
          { m with groups := m.groups ++ n.groups } else m with hf
      have hfa : f a = { a with groups := a.groups ++ n.groups } := by
        rw [hf]; simp [haL, hnl]
      have ha' : f a ∈ dedupInsert acc n := by
        rw [hins]; exact List.mem_map.mpr ⟨a, ha, rfl⟩
      have huniq' : ∀ p ∈ dedupInsert acc n, p.dbNode.link = L → p = f a := by
        intro p hp hpL
        rw [hins] at hp
        obtain ⟨q, hq, rfl⟩ := List.mem_map.mp hp
        have hqL : q.dbNode.link = L := by
          rw [← dedupInsert_link_preserved acc n q]; exact hpL
        rw [huniq q hq hqL]
      have := ih (dedupInsert acc n) (f a) ha' (by rw [hfa]; exact haL) huniq' e he heL
      rw [hfa] at this
      refine ⟨this.1, ?_⟩
      rw [this.2]
      rw [List.filter_cons_of_pos (by simpa using hnl), List.flatMap_cons]
      simp [List.append_assoc]
    · have hacase : ∀ (hyp : dedupInsert acc n = dedupInsert acc n),
          a ∈ dedupInsert acc n ∧ (∀ p ∈ dedupInsert acc n, p.dbNode.link = L → p = a) := by
        intro _
        unfold dedupInsert
        by_cases hAny : acc.any (fun m => m.dbNode.link == n.dbNode.link) = true
        · rw [if_pos hAny]
          constructor
          · refine List.mem_map.mpr ⟨a, ha, ?_⟩
            simp only [show (a.dbNode.link == n.dbNode.link) = false by
              rw [haL]; exact beq_eq_false_iff_ne.mpr (Ne.symm hnl)]
            simp
          · intro p hp hpL
            obtain ⟨q, hq, rfl⟩ := List.mem_map.mp hp
            have hqL : q.dbNode.link = L := by
              rw [← dedupInsert_link_preserved acc n q]; exact hpL
            have hqa : q = a := huniq q hq hqL
            subst hqa
            simp only [show (q.dbNode.link == n.dbNode.link) = false by
              rw [hqL]; exact beq_eq_false_iff_ne.mpr (Ne.symm hnl)]
            simp
        · rw [if_neg hAny]
          constructor
          · exact List.mem_append.mpr (Or.inl ha)
          · intro p hp hpL
            rcases List.mem_append.mp hp with h | h
            · exact huniq p h hpL
            · rw [List.mem_singleton.mp h] at hpL
              exact absurd hpL hnl
      obtain ⟨ha', huniq'⟩ := hacase rfl
      have := ih (dedupInsert acc n) a ha' haL huniq' e he heL
      refine ⟨this.1, ?_⟩
      rw [this.2, List.filter_cons_of_neg (by simpa using hnl)]

theorem dedupFold_groups_new (L : String) :
    ∀ (rest acc : List NodeRec),
      (∀ p ∈ acc, p.dbNode.link ≠ L) →
      ∀ e ∈ dedupFold acc rest, e.dbNode.link = L →
        ∃ f, rest.find? (fun n => n.dbNode.link == L) = some f ∧
          e.dbNode = f.dbNode ∧
          e.groups
            = (rest.filter (fun n => n.dbNode.link == L)).flatMap (fun n => n.groups) := by
  intro rest
  induction rest with
  | nil =>
    intro acc hacc e he heL
    rw [show dedupFold acc [] = acc from rfl] at he
    exact absurd heL (hacc e he)
  | cons n rs ih =>
    intro acc hacc e he heL
    rw [show dedupFold acc (n :: rs) = dedupFold (dedupInsert acc n) rs from rfl] at he
    by_cases hnl : n.dbNode.link = L
    · have hAny : acc.any (fun m => m.dbNode.link == n.dbNode.link) = false := by
        rw [List.any_eq_false]
        intro p hp
        simp only [beq_iff_eq]
        rw [hnl]
        exact hacc p hp
      have hins : dedupInsert acc n = acc ++ [n] := by
        unfold dedupInsert
        rw [if_neg (by simp [hAny])]
      have hmem : n ∈ dedupInsert acc n := by
        rw [hins]; exact List.mem_append.mpr (Or.inr (by simp))
      have huniq : ∀ p ∈ dedupInsert acc n, p.dbNode.link = L → p = n := by
        intro p hp hpL
        rw [hins] at hp
        rcases List.mem_append.mp hp with h | h
        · exact absurd hpL (hacc p h)
        · exact List.mem_singleton.mp h
      have := dedupFold_groups_acc L rs (dedupInsert acc n) n hmem hnl huniq e he heL
      refine ⟨n, ?_, this.1, ?_⟩
      · rw [List.find?_cons_of_pos _ (by simpa using hnl)]
      · rw [this.2, List.filter_cons_of_pos (by simpa using hnl), List.flatMap_cons]
    · have hacc' : ∀ p ∈ dedupInsert acc n, p.dbNode.link ≠ L := by
        intro p hp
        unfold dedupInsert at hp
        by_cases hAny : acc.any (fun m => m.dbNode.link == n.dbNode.link) = true
        · rw [if_pos hAny] at hp
          obtain ⟨q, hq, rfl⟩ := List.mem_map.mp hp
          rw [dedupInsert_link_preserved acc n q]
          exact hacc q hq
        · rw [if_neg hAny] at hp
          rcases List.mem_append.mp hp with h | h
          · exact hacc p h
          · rw [List.mem_singleton.mp h]
            exact hnl
      obtain ⟨f, hfind, hdb, hgr⟩ := ih (dedupInsert acc n) hacc' e he heL
      refine ⟨f, ?_, hdb, ?_⟩
      · rw [List.find?_cons_of_neg _ (by simpa using hnl)]
        exact hfind
      · rw [hgr, List.filter_cons_of_neg (by simpa using hnl)]

/-! ### dae.go lines 39–173: the reload orchestrator loop

One loop iteration is a step function on an explicit loop state; the engine
(`control.NewControlPlane` et al.) is external and appears as an oracle.
The list of `LoopEvent`s is the observable behaviour of one step, in program
order. -/

/-- The fields of `daeConfig.Config` the orchestrator itself reads. -/
structure DaeConfig where
  cid : Nat                 -- identity of the assembled configuration value
  dnsIpVersionPrefer : Nat  -- conf.Dns.IpVersionPrefer
  deriving Repr, DecidableEq

/-- Observable actions of one loop iteration, in program order. -/
inductive LoopEvent
  | ejectBpf                                  -- obj := c.EjectBpf()
  | build (cfg : Nat) (dnsCache : Option Nat) -- newControlPlane(log, obj, dnsCache, cfg, …)
  | closeObj                                  -- obj.Close()
  | closeEngine                               -- c.Close() / oldC.Close()
  | fatalExit                                 -- log.Fatalln: the process exits
  | injectBpf                                 -- newC.InjectBpf(obj)
  | callbackTrue                              -- chCallback <- true
  deriving Repr, DecidableEq

/-- External engine behaviour: does `newControlPlane` succeed for a
configuration during this transition, and which DNS-cache identity does the
built instance hold afterwards. -/
structure EngineOracle where
  buildOk : DaeConfig → Bool
  builtCache : DaeConfig → Nat

/-- The loop-carried context of dae.go lines 76–80 plus loop-exit flags. -/
structure LoopState where
  conf : DaeConfig   -- current configuration
  engineCache : Nat  -- identity of c.CloneDnsCache() of the current instance
  reloading : Bool
  isRollback : Bool
  closed : Bool      -- the loop was left (break / Fatalln)
  fatal : Bool       -- termination was by log.Fatalln
  deriving Repr, DecidableEq

/-- The state when `Run` enters the loop (dae.go lines 76–80). -/
def initialLoopState (c : DaeConfig) (cache : Nat) : LoopState :=
  { conf := c, engineCache := cache, reloading := false, isRollback := false,
    closed := false, fatal := false }

/-- One non-sentinel message (dae.go lines 111–166).  Note the source sets
`isRollback := false` on the success path (line 149) but never sets it on the
rollback path (lines 136–145), so the field carries its previous value into
the rollback's completion. -/
def handleReload (o : EngineOracle) (st : LoopState) (newConf : DaeConfig) :
    LoopState × List LoopEvent :=
  let dnsCache : Option Nat :=
    if st.conf.dnsIpVersionPrefer == newConf.dnsIpVersionPrefer
    then some st.engineCache else none
  if o.buildOk newConf then
    ({ st with conf := newConf, engineCache := o.builtCache newConf,
               reloading := true, isRollback := false },
      [.ejectBpf, .build newConf.cid dnsCache, .injectBpf, .closeEngine])
  else if o.buildOk st.conf then
    ({ st with engineCache := o.builtCache st.conf, reloading := true },
      [.ejectBpf, .build newConf.cid dnsCache, .build st.conf.cid dnsCache,
        .injectBpf, .closeEngine])
  else
    ({ st with closed := true, fatal := true },
      [.ejectBpf, .build newConf.cid dnsCache, .build st.conf.cid dnsCache,
        .closeObj, .closeEngine, .fatalExit])

/-- One sentinel (`nil`) message (dae.go lines 84–110): after a reload it
re-serves and — unless the rollback flag is set — sends success on the
request's callback; outside a reload it breaks the loop and closes the
engine (line 169). -/
def handleNil (st : LoopState) : LoopState × List LoopEvent :=
  if st.reloading then
    ({ st with reloading := false },
      if !st.isRollback then [.callbackTrue] else [])
  else
    ({ st with closed := true }, [.closeEngine])

/-- The message-consuming loop (dae.go line 82): once the loop has been left
(break or Fatalln), no further message is processed. -/
def runLoop (o : EngineOracle) : LoopState → List (Option DaeConfig) → LoopState × List LoopEvent
  | st, [] => (st, [])
  | st, msg :: rest =>
    if st.closed then (st, [])
    else
      let pr :=
        match msg with
        | none => handleNil st
        | some c => handleReload o st c
      let rec2 := runLoop o pr.1 rest
      (rec2.1, pr.2 ++ rec2.2)

/-! ### config.go `Run` (lines 248–452): the assembly builder -/

/-- Persisted `db.Config` fields used by `Run`. -/
structure ConfigRec where
  id : Nat
  global : String
  selected : Bool
  version : Nat
  deriving Repr, DecidableEq

/-- Persisted `db.Dns` fields used by `Run`. -/
structure DnsRec where
  id : Nat
  dns : String
  selected : Bool
  version : Nat
  deriving Repr, DecidableEq

/-- Persisted `db.Routing` fields used by `Run`. -/
structure RoutingRec where
  id : Nat
  routing : String
  selected : Bool
  version : Nat
  deriving Repr, DecidableEq

/-- A marshalled group policy parameter (`param.Marshal()`). -/
structure PolicyParam where
  key : String
  val : String
  deriving Repr, DecidableEq

/-- A persisted subscription with its nodes. -/
structure SubscriptionRec where
  sid : Nat
  nodes : List DbNode
  deriving Repr, DecidableEq

/-- Persisted `db.Group` with preloaded subscriptions and its solitary nodes
(the group's nodes whose subscription id is null). -/
structure GroupRec where
  gid : Nat
  name : String
  version : Nat
  policy : String
  policyParams : List PolicyParam
  subscriptions : List SubscriptionRec
  solitaryNodes : List DbNode
  deriving Repr, DecidableEq

/-- The persisted `db.System` running state. -/
structure SystemRec where
  running : Bool
  runningConfigId : Nat
  runningConfigVersion : Nat
  runningDnsId : Nat
  runningDnsVersion : Nat
  runningRoutingId : Nat
  runningRoutingVersion : Nat
  runningGroupVersions : String
  runningGroups : List Nat
  deriving Repr, DecidableEq

/-- The persisted state `Run` reads and writes. -/
structure DbState where
  configs : List ConfigRec
  dnss : List DnsRec
  routings : List RoutingRec
  groups : List GroupRec
  system : SystemRec
  deriving Repr, DecidableEq

/-- `daeConfig.FunctionListOrString`: a plain policy token or a parameterized
selection function. -/
inductive PolicyVal
  | plain (s : String)
  | func (name : String) (params : List PolicyParam)
  deriving Repr, DecidableEq

/-- One entry of the assembled `group` section. -/
structure GroupSpec where
  name : String
  filterNames : List String
  policy : PolicyVal
  deriving Repr, DecidableEq

/-- The assembled runtime configuration handed to the reload queue. -/
structure RuntimeConfig where
  global : String
  dns : String
  routing : String
  groupSection : List GroupSpec
  nodeLines : List String
  deriving Repr, DecidableEq

/-- Stand-in for `dae.EmptyConfig` (the parsed `global{} routing{}`). -/
def emptyRuntimeConfig : RuntimeConfig :=
  { global := "global{}", dns := "", routing := "routing{}",
    groupSection := [], nodeLines := [] }

/-- The errors `Run` returns, by source-return site. -/
inductive RunErr
  | noSelectedConfig
  | noSelectedDns
  | noSelectedRouting
  | parseFailed (msg : String)
  | groupsNotDefined (names : List String)
  | reloadFailed (msg : String)
  | dryRunFailed (msg : String)
  deriving Repr, DecidableEq

/-- External collaborators of `Run`: `dae.ParseConfig` (grammar check over
the three profile texts), `dae.NecessaryOutbounds` (outbound names referenced
by the parsed routing), and the outcome the reload callback reports for each
submitted configuration. -/
structure RunOracle where
  parseOk : String → String → String → Option String
  outboundsOf : String → List String
  reloadResult : RuntimeConfig → Option String

/-- The preset outbounds of config.go lines 328–330. -/
def presetOutbounds : List String := ["direct", "block", "must_direct"]

/-- Node gathering of config.go lines 340–365: subscription nodes first,
then solitary nodes, each tied to the group being processed. -/
def nodesOfGroup (g : GroupRec) : List NodeRec :=
  (g.subscriptions.flatMap (fun sub =>
    sub.nodes.map (fun d => ({ dbNode := d, groups := [g.gid] } : NodeRec))))
    ++ g.solitaryNodes.map (fun d => ({ dbNode := d, groups := [g.gid] } : NodeRec))

def collectNodes (gs : List GroupRec) : List NodeRec :=
  gs.flatMap nodesOfGroup

/-- Policy synthesis of config.go lines 377–392. -/
def policyOf (g : GroupRec) : PolicyVal :=
  if g.policyParams = [] then .plain g.policy
  else .func g.policy g.policyParams

/-- The member list `mGroupNode[g]` (config.go lines 369–374): nodes in slice
order, one occurrence per occurrence of the group in the node's group list. -/
def membersOf (g : GroupRec) (ns : List NodeRec) : List NodeRec :=
  ns.flatMap (fun n => (n.groups.filter (fun gid => gid == g.gid)).map (fun _ => n))

/-- The assembled `group` section (config.go lines 376–409): one spec per
group that owns at least one node, in the iteration order of `mGroupNode`
(the caller passes the groups already permuted by that map order). -/
def groupSectionOf (gs : List GroupRec) (ns : List NodeRec) : List GroupSpec :=
  (gs.filter (fun g => !(membersOf g ns).isEmpty)).map (fun g =>
    { name := g.name,
      filterNames := (membersOf g ns).map (fun n => n.uniqueName),
      policy := policyOf g })

/-- Result of one `config.Run` call: final database state, the submitted
reload messages, and the returned count or error. -/
structure RunResult where
  db : DbState
  reloads : List RuntimeConfig
  result : Except RunErr Int
  deriving Repr

/-- `config.Run` (config.go lines 248–452).  `πd`, `πg` and `πn` are the
iteration orders of the three Go maps whose values the source walks
(`deduplicateNodes`' result set, `mGroupNode`, and the not-found name set);
each is an arbitrary permutation supplied by the environment. -/
def configRun (o : RunOracle) (πd : List NodeRec → List NodeRec)
    (πg : List GroupRec → List GroupRec) (πn : List String → List String)
    (st : DbState) (noLoad : Bool) : RunResult :=
  if noLoad then
    match o.reloadResult emptyRuntimeConfig with
    | some e =>
      { db := st, reloads := [emptyRuntimeConfig], result := .error (.dryRunFailed e) }
    | none =>
      { db := { st with system := { st.system with running := false } },
        reloads := [emptyRuntimeConfig], result := .ok 1 }
  else
    match st.configs.find? (fun c => c.selected) with
    | none => { db := st, reloads := [], result := .error .noSelectedConfig }
    | some mConfig =>
      match st.dnss.find? (fun c => c.selected) with
      | none => { db := st, reloads := [], result := .error .noSelectedDns }
      | some mDns =>
        match st.routings.find? (fun c => c.selected) with
        | none => { db := st, reloads := [], result := .error .noSelectedRouting }
        | some mRouting =>
          match o.parseOk mConfig.global mDns.dns mRouting.routing with
          | some e => { db := st, reloads := [], result := .error (.parseFailed e) }
          | none =>
            let outbounds := o.outboundsOf mRouting.routing
            let groups := st.groups.filter (fun g => outbounds.contains g.name)
            let notFound : List String :=
              if groups.length ≠ outbounds.length then
                πn (outbounds.dedup.filter (fun nm =>
                  !presetOutbounds.contains nm && !st.groups.any (fun g => g.name == nm)))
              else []
            if notFound ≠ [] then
              { db := st, reloads := [], result := .error (.groupsNotDefined notFound) }
            else
              let ns := uniquefyNodesName (πd (deduplicateNodesCore (collectNodes groups)))
              let c : RuntimeConfig :=
                { global := mConfig.global, dns := mDns.dns, routing := mRouting.routing,
                  groupSection := groupSectionOf (πg groups) ns,
                  nodeLines := nodeSection ns }
              match o.reloadResult c with
              | some e => { db := st, reloads := [c], result := .error (.reloadFailed e) }
              | none =>
                { db := { st with system :=
                    { running := true,
                      runningConfigId := mConfig.id,
                      runningConfigVersion := mConfig.version,
                      runningDnsId := mDns.id,
                      runningDnsVersion := mDns.version,
                      runningRoutingId := mRouting.id,
                      runningRoutingVersion := mRouting.version,
                      runningGroupVersions :=
                        String.intercalate "," (groups.map (fun g => natRepr g.version)),
                      runningGroups := groups.map (fun g => g.gid) } },
                  reloads := [c], result := .ok 1 }

/-! ### routing.Update (mutation_utils.go lines 42–77) and config.Update
(config.go lines 56–97) -/

/-- The wrapping of mutation_utils.go line 60. -/
def wrapRouting (routing : String) : String :=
  "routing \x7b\n" ++ routing ++ "\n\x7d"

/-- `routing.Update`: look up the record, wrap and parse the new text, and
only on success commit the new text with version+1; the deferred
`tx.Rollback()` on error leaves the state untouched, and the function never
submits a reload. -/
def routingUpdate (parseRouting : String → Option String) (st : DbState)
    (id : Nat) (newText : String) :
    DbState × List RuntimeConfig × Except String Unit :=
  match st.routings.find? (fun r => r.id == id) with
  | none => (st, [], .error "record not found")
  | some _ =>
    match parseRouting (wrapRouting newText) with
    | some e => (st, [], .error ("bad current routing: " ++ e))
    | none =>
      ({ st with routings := st.routings.map (fun r =>
          if r.id == id then
            { r with routing := wrapRouting newText, version := r.version + 1 }
          else r) },
        [], .ok ())

/-- The typed partial-update input of `config.Update` (external
`global.Input`), opaque to the embedding. -/
structure GlobalInput where
  fields : List (String × String)
  deriving Repr, DecidableEq

/-- `config.Update`: parse the *stored* global text, assign the input onto it
and marshal it back (both external, modelled by `assignMarshal`), and only on
success commit the new text with version+1; any error rolls the transaction
back and no reload is ever submitted. -/
def configUpdate (parseGlobal : String → Option String)
    (assignMarshal : String → GlobalInput → Except String String)
    (st : DbState) (id : Nat) (input : GlobalInput) :
    DbState × List RuntimeConfig × Except String Unit :=
  match st.configs.find? (fun c => c.id == id) with
  | none => (st, [], .error "record not found")
  | some m =>
    match parseGlobal m.global with
    | some e => (st, [], .error ("bad current config: " ++ e))
    | none =>
      match assignMarshal m.global input with
      | .error e => (st, [], .error e)
      | .ok newGlobal =>
        ({ st with configs := st.configs.map (fun c =>
            if c.id == id then { c with global := newGlobal, version := c.version + 1 }
            else c) },
          [], .ok ())

/-! ### Supporting lemmas for the claims -/

theorem tagDistinct_symm : Symmetric TagDistinct := by
  intro a b hab h1 h2
  exact Ne.symm (hab h2 h1)

theorem dedupFold_dbNode_sublist :
    ∀ (rest acc : List NodeRec),
      List.Sublist ((dedupFold acc rest).map (fun n => n.dbNode))
        ((acc ++ rest).map (fun n => n.dbNode)) := by
  intro rest
  induction rest with
  | nil => intro acc; simp [dedupFold]
  | cons n rs ih =>
    intro acc
    rw [show dedupFold acc (n :: rs) = dedupFold (dedupInsert acc n) rs from rfl]
    unfold dedupInsert
    by_cases hAny : acc.any (fun m => m.dbNode.link == n.dbNode.link) = true
    · rw [if_pos hAny]
      have hmap : (acc.map (fun m =>
          if (m.dbNode.link == n.dbNode.link) = true then
            { m with groups := m.groups ++ n.groups } else m)).map (fun n => n.dbNode)
          = acc.map (fun n => n.dbNode) := by
        rw [List.map_map]
        refine List.map_congr_left ?_
        intro m _
        simp only [Function.comp_apply]
        split <;> rfl
      have := ih (acc.map (fun m =>
        if (m.dbNode.link == n.dbNode.link) = true then
          { m with groups := m.groups ++ n.groups } else m))
      rw [List.map_append, hmap] at this
      refine this.trans ?_
      rw [List.map_append, List.map_cons]
      exact (List.append_sublist_append_left _).mpr (List.sublist_cons_self _ _)
    · rw [if_neg hAny]
      have := ih (acc ++ [n])
      rw [List.append_assoc] at this
      simpa using this

theorem dedup_tagDistinct (ns : List NodeRec)
    (hdist : (ns.map (fun n => n.dbNode)).Pairwise TagDistinct)
    (π : List NodeRec → List NodeRec)
    (hπ : (π (deduplicateNodesCore ns)).Perm (deduplicateNodesCore ns)) :
    ((π (deduplicateNodesCore ns)).map (fun n => n.dbNode)).Pairwise TagDistinct := by
  have hcore : ((deduplicateNodesCore ns).map (fun n => n.dbNode)).Pairwise TagDistinct := by
    have hsub := dedupFold_dbNode_sublist ns []
    rw [List.nil_append] at hsub
    exact hdist.sublist hsub
  exact ((hπ.map (fun n => n.dbNode)).pairwise_iff @tagDistinct_symm).mpr hcore

/-! ### Claim C4 -/

/-- C4: after `uniquefyNodesName`, assuming the explicit tags are pairwise
distinct, every node carrying a tag is assigned exactly that tag as its
unique name, and no other node of the list (tagged or untagged) is assigned
that same name. -/
theorem tagged_nodes_named_by_tag (ns : List NodeRec)
    (hdist : (ns.map (fun n => n.dbNode)).Pairwise TagDistinct) :
    ∀ (i : Nat) (hi : i < (uniquefyNodesName ns).length) (t : String),
      ((uniquefyNodesName ns).get ⟨i, hi⟩).dbNode.tag = some t →
      ((uniquefyNodesName ns).get ⟨i, hi⟩).uniqueName = t ∧
        ∀ (j : Nat) (hj : j < (uniquefyNodesName ns).length), j ≠ i →
          ((uniquefyNodesName ns).get ⟨j, hj⟩).uniqueName ≠ t :=
  fun i hi t ht => uniquefy_tagged_name ns hdist i hi t ht

/-- A tagged node together with an untagged node whose base name collides
with the tag; the untagged node must be pushed to `T.0`. -/
def exC4 : List NodeRec :=
  [ { dbNode := { name := "a", link := "la", tag := some "T", subscriptionId := none },
      groups := [1] },
    { dbNode := { name := "T", link := "lb", tag := none, subscriptionId := none },
      groups := [2] } ]

theorem tagged_nodes_named_by_tag_witness :
    (exC4.map (fun n => n.dbNode)).Pairwise TagDistinct ∧
      ((uniquefyNodesName exC4).get ⟨0, by decide⟩).uniqueName = "T" ∧
      ((uniquefyNodesName exC4).get ⟨1, by decide⟩).uniqueName ≠ "T" :=
  ⟨by decide,
    (tagged_nodes_named_by_tag exC4 (by decide) 0 (by decide) "T" (by decide)).1,
    (tagged_nodes_named_by_tag exC4 (by decide) 0 (by decide) "T" (by decide)).2
      1 (by decide) (by decide)⟩

/-! ### Claim C10 -/

/-- C10: if exactly two distinct deduplicated nodes carry the same explicit
tag `t`, then after `uniquefyNodesName` the later one is assigned `t` and the
earlier one's unique name remains the empty string, so the emitted node
section contains an entry whose name part is empty. -/
theorem duplicate_tag_shadowing (ns : List NodeRec) (i j : Nat)
    (hi : i < (uniquefyNodesName ns).length) (hj : j < (uniquefyNodesName ns).length)
    (hij : i < j) (t : String)
    (hti : ((uniquefyNodesName ns).get ⟨i, hi⟩).dbNode.tag = some t)
    (htj : ((uniquefyNodesName ns).get ⟨j, hj⟩).dbNode.tag = some t)
    (honly : ∀ (k : Nat) (hk : k < (uniquefyNodesName ns).length),
      ((uniquefyNodesName ns).get ⟨k, hk⟩).dbNode.tag = some t → k = i ∨ k = j) :
    ((uniquefyNodesName ns).get ⟨j, hj⟩).uniqueName = t ∧
      ((uniquefyNodesName ns).get ⟨i, hi⟩).uniqueName = "" ∧
      (((uniquefyNodesName ns).get ⟨i, hi⟩).uniqueName ++ ":"
          ++ ((uniquefyNodesName ns).get ⟨i, hi⟩).dbNode.link)
        ∈ nodeSection (uniquefyNodesName ns) := by
  obtain ⟨h1, h2⟩ := uniquefy_dup_tag ns i j hi hj hij t hti htj honly
  exact ⟨h1, h2, List.mem_map.mpr ⟨_, List.get_mem _ _ _, rfl⟩⟩

/-- Two records carrying the same tag `T`, plus an unrelated untagged one. -/
def exC10 : List NodeRec :=
  [ { dbNode := { name := "a", link := "la", tag := some "T", subscriptionId := none },
      groups := [1] },
    { dbNode := { name := "b", link := "lb", tag := some "T", subscriptionId := none },
      groups := [2] },
    { dbNode := { name := "u", link := "lu", tag := none, subscriptionId := some 3 },
      groups := [1] } ]

theorem duplicate_tag_shadowing_witness :
    ((uniquefyNodesName exC10).get ⟨1, by decide⟩).uniqueName = "T" ∧
      ((uniquefyNodesName exC10).get ⟨0, by decide⟩).uniqueName = "" ∧
      (((uniquefyNodesName exC10).get ⟨0, by decide⟩).uniqueName ++ ":"
          ++ ((uniquefyNodesName exC10).get ⟨0, by decide⟩).dbNode.link)
        ∈ nodeSection (uniquefyNodesName exC10) :=
  duplicate_tag_shadowing exC10 0 1 (by decide) (by decide) (by decide) "T"
    (by decide) (by decide) (by decide)

/-! ### Claim C5 -/

/-- C5: when two or more records share a connection link, the deduplicated
slice (in any map iteration order) holds exactly one node with that link; its
group list is the concatenation — hence the union — of the group memberships
of all contributing records, and its db record is the first record that
carried the link.  Links are compared by value. -/
theorem dedup_merges_by_link (nodes : List NodeRec) (L : String)
    (h2 : 2 ≤ nodes.countP (fun n => n.dbNode.link == L)) :
    ∀ out : List NodeRec, out.Perm (deduplicateNodesCore nodes) →
      out.countP (fun n => n.dbNode.link == L) = 1 ∧
      ∀ e ∈ out, e.dbNode.link = L →
        e.groups = (nodes.filter (fun n => n.dbNode.link == L)).flatMap (fun n => n.groups) ∧
        (∀ g, g ∈ e.groups ↔ ∃ r ∈ nodes, r.dbNode.link = L ∧ g ∈ r.groups) ∧
        ∃ f, nodes.find? (fun n => n.dbNode.link == L) = some f ∧ e.dbNode = f.dbNode := by
  intro out hperm
  constructor
  · rw [hperm.countP_eq]
    have := dedupFold_countP L nodes []
    rw [show deduplicateNodesCore nodes = dedupFold [] nodes from rfl, this]
    simp only [List.countP_nil, ne_eq, not_true_eq_false, if_false]
    omega
  · intro e he heL
    have hecore : e ∈ deduplicateNodesCore nodes := hperm.mem_iff.mp he
    obtain ⟨f, hfind, hdb, hgr⟩ :=
      dedupFold_groups_new L nodes [] (by simp) e hecore heL
    refine ⟨hgr, ?_, f, hfind, hdb⟩
    intro g
    rw [hgr, List.mem_flatMap]
    constructor
    · rintro ⟨r, hr, hg⟩
      have := List.mem_filter.mp hr
      exact ⟨r, this.1, by simpa using this.2, hg⟩
    · rintro ⟨r, hr, hrL, hg⟩
      exact ⟨r, List.mem_filter.mpr ⟨hr, by simpa using hrL⟩, hg⟩

/-- Three records, two sharing link `L` with distinct group sets. -/
def exC5 : List NodeRec :=
  [ { dbNode := { name := "n", link := "L", tag := none, subscriptionId := none },
      groups := [1] },
    { dbNode := { name := "p", link := "L", tag := none, subscriptionId := some 3 },
      groups := [2, 3] },
    { dbNode := { name := "q", link := "L2", tag := none, subscriptionId := none },
      groups := [4] } ]

theorem dedup_merges_by_link_witness :
    2 ≤ exC5.countP (fun n => n.dbNode.link == "L") ∧
      (deduplicateNodesCore exC5).countP (fun n => n.dbNode.link == "L") = 1 :=
  ⟨by decide,
    (dedup_merges_by_link exC5 "L" (by decide) (deduplicateNodesCore exC5)
      (List.Perm.refl _)).1⟩

/-! ### Claim C1 -/

/-- Two untagged records with equal base name and distinct links: the suffix
assignment depends on which record the dedup map's value iteration yields
first. -/
def exC1 : List NodeRec :=
  [ { dbNode := { name := "n", link := "l1", tag := none, subscriptionId := none },
      groups := [1] },
    { dbNode := { name := "n", link := "l2", tag := none, subscriptionId := none },
      groups := [1] } ]

/-- C1 counterexample: the same records in the same input order, assembled
under two legal iteration orders of the `deduplicateNodes` result map,
produce different node sections, and the record with link `l1` is named `n`
in one run and `n.0` in the other.  The claim that two runs always produce
identical outputs is false on this code. -/
theorem assembly_output_depends_on_map_order :
    (List.reverse (deduplicateNodesCore exC1)).Perm (deduplicateNodesCore exC1) ∧
    nodeSection (uniquefyNodesName (deduplicateNodesCore exC1)) = ["n:l1", "n.0:l2"] ∧
    nodeSection (uniquefyNodesName (List.reverse (deduplicateNodesCore exC1)))
      = ["n:l2", "n.0:l1"] ∧
    nodeSection (uniquefyNodesName (deduplicateNodesCore exC1))
      ≠ nodeSection (uniquefyNodesName (List.reverse (deduplicateNodesCore exC1))) :=
  ⟨List.reverse_perm _, by decide, by decide, by decide⟩

/-- C1 amended: the builder is a deterministic function of the records
*plus* the Go map iteration orders (runs repeating the same orders agree
definitionally), and the names assigned to tagged nodes do not depend on the
iteration order at all: under pairwise-distinct tags, a tagged node is named
by its tag in every run. -/
theorem assembly_tagged_names_stable (ns : List NodeRec)
    (hdist : (ns.map (fun n => n.dbNode)).Pairwise TagDistinct)
    (π₁ π₂ : List NodeRec → List NodeRec)
    (h₁ : (π₁ (deduplicateNodesCore ns)).Perm (deduplicateNodesCore ns))
    (h₂ : (π₂ (deduplicateNodesCore ns)).Perm (deduplicateNodesCore ns)) :
    ∀ e₁ ∈ uniquefyNodesName (π₁ (deduplicateNodesCore ns)),
      ∀ e₂ ∈ uniquefyNodesName (π₂ (deduplicateNodesCore ns)),
        ∀ t, e₁.dbNode.tag = some t → e₂.dbNode.tag = some t →
          e₁.uniqueName = t ∧ e₂.uniqueName = t := by
  intro e₁ he₁ e₂ he₂ t ht₁ ht₂
  constructor
  · obtain ⟨i, hi⟩ := List.mem_iff_get.mp he₁
    rw [← hi] at ht₁ ⊢
    exact (uniquefy_tagged_name _ (dedup_tagDistinct ns hdist π₁ h₁) i.val i.isLt t
      (by simpa using ht₁)).1
  · obtain ⟨i, hi⟩ := List.mem_iff_get.mp he₂
    rw [← hi] at ht₂ ⊢
    exact (uniquefy_tagged_name _ (dedup_tagDistinct ns hdist π₂ h₂) i.val i.isLt t
      (by simpa using ht₂)).1

/-- A tagged and an untagged record, for the amended-C1 witness. -/
def exW1 : List NodeRec :=
  [ { dbNode := { name := "a", link := "la", tag := some "T", subscriptionId := none },
      groups := [1] },
    { dbNode := { name := "u", link := "lu", tag := none, subscriptionId := none },
      groups := [1] } ]

theorem assembly_tagged_names_stable_witness :
    (exW1.map (fun n => n.dbNode)).Pairwise TagDistinct ∧
      ({ dbNode := { name := "a", link := "la", tag := some "T", subscriptionId := none },
         groups := [1], uniqueName := "T" } : NodeRec).uniqueName = "T" :=
  ⟨by decide,
    (assembly_tagged_names_stable exW1 (by decide) id List.reverse
      (List.Perm.refl _) (List.reverse_perm _)
      { dbNode := { name := "a", link := "la", tag := some "T", subscriptionId := none },
        groups := [1], uniqueName := "T" } (by decide)
      { dbNode := { name := "a", link := "la", tag := some "T", subscriptionId := none },
        groups := [1], uniqueName := "T" } (by decide)
      "T" (by decide) (by decide)).1⟩

/-! ### Claim C2 -/

/-- C2 (exhibit of the defect): serving configuration `c0`, a reload request
for `c1` whose construction fails while reconstructing `c0` succeeds rolls
the loop back (the active configuration stays `c0`, both construction
attempts are visible), yet the listener-ready step still sends success on
the caller's callback — dae.go initialises `isRollback := false` (line 78),
resets it on the success path (line 149), but never sets it on the rollback
path (lines 136–145), so the guard at line 102 always passes. -/
theorem rollback_still_reports_success :
    (handleReload { buildOk := fun c => c.cid == 0, builtCache := fun _ => 0 }
        (initialLoopState ⟨0, 4⟩ 7) ⟨1, 4⟩).1.conf = ⟨0, 4⟩ ∧
    LoopEvent.build 1 (some 7)
      ∈ (handleReload { buildOk := fun c => c.cid == 0, builtCache := fun _ => 0 }
          (initialLoopState ⟨0, 4⟩ 7) ⟨1, 4⟩).2 ∧
    LoopEvent.build 0 (some 7)
      ∈ (handleReload { buildOk := fun c => c.cid == 0, builtCache := fun _ => 0 }
          (initialLoopState ⟨0, 4⟩ 7) ⟨1, 4⟩).2 ∧
    (handleNil (handleReload { buildOk := fun c => c.cid == 0, builtCache := fun _ => 0 }
        (initialLoopState ⟨0, 4⟩ 7) ⟨1, 4⟩).1).2 = [LoopEvent.callbackTrue] := by
  decide

/-! ### Claim C6 -/

theorem runLoop_closed (o : EngineOracle) (st : LoopState) (h : st.closed = true) :
    ∀ msgs, runLoop o st msgs = (st, []) := by
  intro msgs
  cases msgs with
  | nil => rfl
  | cons m rest =>
    unfold runLoop
    rw [if_pos h]

/-- C6: when the requested configuration fails to build and the previous
configuration also fails to rebuild, the step closes the ejected kernel
object and the old engine instance (in that order, before the fatal exit),
the process terminates fatally, and the loop processes no further message. -/
theorem double_failure_fatal (o : EngineOracle) (st : LoopState) (c : DaeConfig)
    (h1 : o.buildOk c = false) (h2 : o.buildOk st.conf = false) :
    (handleReload o st c).1.fatal = true ∧
    (handleReload o st c).2
      = [.ejectBpf,
          .build c.cid (if st.conf.dnsIpVersionPrefer == c.dnsIpVersionPrefer
                        then some st.engineCache else none),
          .build st.conf.cid (if st.conf.dnsIpVersionPrefer == c.dnsIpVersionPrefer
                        then some st.engineCache else none),
          .closeObj, .closeEngine, .fatalExit] ∧
    ∀ msgs, runLoop o (handleReload o st c).1 msgs = ((handleReload o st c).1, []) := by
  have hstep : handleReload o st c
      = ({ st with closed := true, fatal := true },
          [.ejectBpf,
            .build c.cid (if st.conf.dnsIpVersionPrefer == c.dnsIpVersionPrefer
                          then some st.engineCache else none),
            .build st.conf.cid (if st.conf.dnsIpVersionPrefer == c.dnsIpVersionPrefer
                          then some st.engineCache else none),
            .closeObj, .closeEngine, .fatalExit]) := by
    unfold handleReload
    rw [if_neg (by simp [h1]), if_neg (by simp [h2])]
  refine ⟨by rw [hstep], by rw [hstep], ?_⟩
  intro msgs
  rw [hstep]
  exact runLoop_closed o _ rfl msgs

theorem double_failure_fatal_witness :
    ({ buildOk := fun _ => false, builtCache := fun _ => 0 } : EngineOracle).buildOk ⟨1, 4⟩
        = false ∧
      (handleReload { buildOk := fun _ => false, builtCache := fun _ => 0 }
        (initialLoopState ⟨0, 4⟩ 7) ⟨1, 4⟩).1.fatal = true ∧
      runLoop { buildOk := fun _ => false, builtCache := fun _ => 0 }
          (handleReload { buildOk := fun _ => false, builtCache := fun _ => 0 }
            (initialLoopState ⟨0, 4⟩ 7) ⟨1, 4⟩).1 [some ⟨2, 4⟩, none]
        = ((handleReload { buildOk := fun _ => false, builtCache := fun _ => 0 }
            (initialLoopState ⟨0, 4⟩ 7) ⟨1, 4⟩).1, []) :=
  ⟨rfl,
    (double_failure_fatal { buildOk := fun _ => false, builtCache := fun _ => 0 }
      (initialLoopState ⟨0, 4⟩ 7) ⟨1, 4⟩ rfl rfl).1,
    (double_failure_fatal { buildOk := fun _ => false, builtCache := fun _ => 0 }
      (initialLoopState ⟨0, 4⟩ 7) ⟨1, 4⟩ rfl rfl).2.2 [some ⟨2, 4⟩, none]⟩

/-! ### Claim C8 -/

/-- C8: during a reload transition, every engine construction — the one for
the requested configuration and, on its failure, the rollback one — receives
the old instance's cloned DNS cache exactly when the old and new
configurations agree on the DNS IP-version preference, and a nil cache
otherwise. -/
theorem dns_cache_cloned_iff_same_preference (o : EngineOracle) (st : LoopState)
    (c : DaeConfig) (cfg : Nat) (cache : Option Nat)
    (hmem : LoopEvent.build cfg cache ∈ (handleReload o st c).2) :
    cache = if st.conf.dnsIpVersionPrefer = c.dnsIpVersionPrefer
            then some st.engineCache else none := by
  unfold handleReload at hmem
  by_cases hb1 : o.buildOk c = true
  · rw [if_pos hb1] at hmem
    simp at hmem
    exact hmem.2
  · rw [if_neg hb1] at hmem
    by_cases hb2 : o.buildOk st.conf = true
    · rw [if_pos hb2] at hmem
      simp at hmem
      rcases hmem with ⟨_, h⟩ | ⟨_, h⟩ <;> exact h
    · rw [if_neg hb2] at hmem
      simp at hmem
      rcases hmem with ⟨_, h⟩ | ⟨_, h⟩ <;> exact h

theorem dns_cache_cloned_iff_same_preference_witness :
    (LoopEvent.build 1 (some 7)
      ∈ (handleReload { buildOk := fun _ => true, builtCache := fun _ => 0 }
          (initialLoopState ⟨0, 4⟩ 7) ⟨1, 4⟩).2) ∧
    ((some 7 : Option Nat)
      = if (initialLoopState ⟨0, 4⟩ 7).conf.dnsIpVersionPrefer
            = (⟨1, 4⟩ : DaeConfig).dnsIpVersionPrefer
        then some (initialLoopState ⟨0, 4⟩ 7).engineCache else none) ∧
    (LoopEvent.build 2 none
      ∈ (handleReload { buildOk := fun _ => true, builtCache := fun _ => 0 }
          (initialLoopState ⟨0, 4⟩ 7) ⟨2, 5⟩).2) ∧
    ((none : Option Nat)
      = if (initialLoopState ⟨0, 4⟩ 7).conf.dnsIpVersionPrefer
            = (⟨2, 5⟩ : DaeConfig).dnsIpVersionPrefer
        then some (initialLoopState ⟨0, 4⟩ 7).engineCache else none) :=
  ⟨by decide,
    dns_cache_cloned_iff_same_preference
      { buildOk := fun _ => true, builtCache := fun _ => 0 }
      (initialLoopState ⟨0, 4⟩ 7) ⟨1, 4⟩ 1 (some 7) (by decide),
    by decide,
    dns_cache_cloned_iff_same_preference
      { buildOk := fun _ => true, builtCache := fun _ => 0 }
      (initialLoopState ⟨0, 4⟩ 7) ⟨2, 5⟩ 2 none (by decide)⟩

/-! ### Claim C9 -/

/-- C9: an update of a persisted routing or global-config profile whose
parse step fails returns the parse error synchronously: the deferred
transaction rollback leaves the record — text and version counter alike —
untouched, and no reload message is submitted (neither Update function ever
touches the reload queue). -/
theorem update_parse_failure_is_pure (st : DbState) (id : Nat) :
    (∀ (parseRouting : String → Option String) (mr : RoutingRec) (newText e : String),
        st.routings.find? (fun r => r.id == id) = some mr →
        parseRouting (wrapRouting newText) = some e →
        routingUpdate parseRouting st id newText
          = (st, [], .error ("bad current routing: " ++ e))) ∧
    (∀ (parseGlobal : String → Option String)
        (assignMarshal : String → GlobalInput → Except String String)
        (input : GlobalInput) (m : ConfigRec) (e : String),
        st.configs.find? (fun c => c.id == id) = some m →
        parseGlobal m.global = some e →
        configUpdate parseGlobal assignMarshal st id input
          = (st, [], .error ("bad current config: " ++ e))) := by
  constructor
  · intro parseRouting mr newText e hfind hp
    unfold routingUpdate
    rw [hfind, hp]
  · intro parseGlobal assignMarshal input m e hfind hp
    unfold configUpdate
    rw [hfind]
    dsimp only
    rw [hp]

/-- State and oracles for the C9 witness: one routing record and one config
record, with parsers that reject everything. -/
def exDb : DbState :=
  { configs := [{ id := 1, global := "global{}", selected := true, version := 3 }],
    dnss := [{ id := 1, dns := "dns{}", selected := true, version := 2 }],
    routings := [{ id := 1, routing := "routing{}", selected := true, version := 5 }],
    groups := [],
    system :=
      { running := false,
        runningConfigId := 0, runningConfigVersion := 0,
        runningDnsId := 0, runningDnsVersion := 0,
        runningRoutingId := 0, runningRoutingVersion := 0,
        runningGroupVersions := "", runningGroups := [] } }

theorem update_parse_failure_is_pure_witness :
    routingUpdate (fun _ => some "syntax") exDb 1 "bad \x7b"
        = (exDb, [], .error ("bad current routing: " ++ "syntax")) ∧
      configUpdate (fun _ => some "syntax") (fun s _ => .ok s) exDb 1 ⟨[]⟩
        = (exDb, [], .error ("bad current config: " ++ "syntax")) :=
  ⟨(update_parse_failure_is_pure exDb 1).1 (fun _ => some "syntax")
      { id := 1, routing := "routing{}", selected := true, version := 5 } "bad \x7b" "syntax"
      (by decide) rfl,
    (update_parse_failure_is_pure exDb 1).2 (fun _ => some "syntax") (fun s _ => .ok s)
      ⟨[]⟩ { id := 1, global := "global{}", selected := true, version := 3 } "syntax"
      (by decide) rfl⟩

/-! ### Claim C7 -/

/-- C7: when `Run` with noLoad=false succeeds (the reload callback reported
no error), the persisted running state holds running=true and exactly the
ids and versions of the selected config/dns/routing records that were read
to build the submitted configuration, together with the version fingerprint
of the referenced groups; exactly one reload message was submitted. -/
theorem run_success_records_selected_versions (o : RunOracle)
    (πd : List NodeRec → List NodeRec) (πg : List GroupRec → List GroupRec)
    (πn : List String → List String) (st : DbState)
    (mc : ConfigRec) (md : DnsRec) (mr : RoutingRec)
    (hc : st.configs.find? (fun c => c.selected) = some mc)
    (hd : st.dnss.find? (fun c => c.selected) = some md)
    (hr : st.routings.find? (fun c => c.selected) = some mr)
    (n : Int) (hok : (configRun o πd πg πn st false).result = .ok n) :
    (configRun o πd πg πn st false).db.system.running = true ∧
    (configRun o πd πg πn st false).db.system.runningConfigId = mc.id ∧
    (configRun o πd πg πn st false).db.system.runningConfigVersion = mc.version ∧
    (configRun o πd πg πn st false).db.system.runningDnsId = md.id ∧
    (configRun o πd πg πn st false).db.system.runningDnsVersion = md.version ∧
    (configRun o πd πg πn st false).db.system.runningRoutingId = mr.id ∧
    (configRun o πd πg πn st false).db.system.runningRoutingVersion = mr.version ∧
    (configRun o πd πg πn st false).db.system.runningGroupVersions
      = String.intercalate ","
          ((st.groups.filter (fun g => (o.outboundsOf mr.routing).contains g.name)).map
            (fun g => natRepr g.version)) ∧
    (configRun o πd πg πn st false).reloads.length = 1 := by
  unfold configRun at hok ⊢
  rw [if_neg (by simp)] at hok ⊢
  rw [hc, hd, hr] at hok ⊢
  dsimp only at hok ⊢
  cases hparse : o.parseOk mc.global md.dns mr.routing with
  | some e =>
    rw [hparse] at hok
    dsimp only at hok
    exact absurd hok (by simp)
  | none =>
    rw [hparse] at hok
    dsimp only at hok ⊢
    by_cases hB : (st.groups.filter (fun g => (o.outboundsOf mr.routing).contains g.name)).length
        ≠ (o.outboundsOf mr.routing).length
    · rw [if_pos hB] at hok ⊢
      by_cases hN : πn ((o.outboundsOf mr.routing).dedup.filter (fun nm =>
          !presetOutbounds.contains nm && !st.groups.any (fun g => g.name == nm))) ≠ []
      · rw [if_pos hN] at hok
        exact absurd hok (by simp)
      · rw [if_neg hN] at hok ⊢
        split at hok
        · exact absurd hok (by simp)
        · rename_i heq
          simp [heq]
    · rw [if_neg hB] at hok ⊢
      rw [if_neg (by simp)] at hok ⊢
      split at hok
      · exact absurd hok (by simp)
      · rename_i heq
        simp [heq]

/-- Oracles and state for the C7 witness: one selected record of each kind,
one group referenced by the routing, everything parses, and the reload
callback reports success. -/
def exOracle : RunOracle :=
  { parseOk := fun _ _ _ => none,
    outboundsOf := fun _ => ["G1"],
    reloadResult := fun _ => none }

def exDb7 : DbState :=
  { configs := [{ id := 11, global := "global{}", selected := true, version := 3 }],
    dnss := [{ id := 12, dns := "dns{}", selected := true, version := 2 }],
    routings := [{ id := 13, routing := "routing{}", selected := true, version := 5 }],
    groups := [{ gid := 21, name := "G1", version := 9, policy := "min_moving_avg",
                 policyParams := [], subscriptions := [],
                 solitaryNodes := [{ name := "n", link := "l", tag := none,
                                     subscriptionId := none }] }],
    system :=
      { running := false,
        runningConfigId := 0, runningConfigVersion := 0,
        runningDnsId := 0, runningDnsVersion := 0,
        runningRoutingId := 0, runningRoutingVersion := 0,
        runningGroupVersions := "", runningGroups := [] } }

theorem run_success_records_selected_versions_witness :
    (configRun exOracle id id id exDb7 false).result = .ok 1 ∧
      (configRun exOracle id id id exDb7 false).db.system.running = true ∧
      (configRun exOracle id id id exDb7 false).db.system.runningConfigVersion = 3 ∧
      (configRun exOracle id id id exDb7 false).db.system.runningGroupVersions = "9" :=
  ⟨rfl,
    (run_success_records_selected_versions exOracle id id id exDb7
      { id := 11, global := "global{}", selected := true, version := 3 }
      { id := 12, dns := "dns{}", selected := true, version := 2 }
      { id := 13, routing := "routing{}", selected := true, version := 5 }
      rfl rfl rfl 1 rfl).1,
    (run_success_records_selected_versions exOracle id id id exDb7
      { id := 11, global := "global{}", selected := true, version := 3 }
      { id := 12, dns := "dns{}", selected := true, version := 2 }
      { id := 13, routing := "routing{}", selected := true, version := 5 }
      rfl rfl rfl 1 rfl).2.2.1,
    by
      have := (run_success_records_selected_versions exOracle id id id exDb7
        { id := 11, global := "global{}", selected := true, version := 3 }
        { id := 12, dns := "dns{}", selected := true, version := 2 }
        { id := 13, routing := "routing{}", selected := true, version := 5 }
        rfl rfl rfl 1 rfl).2.2.2.2.2.2.2.1
      rw [this]
      rfl⟩

/-! ### Claim C3 -/

/-- C3: when the routing's referenced outbounds include a name that is
neither a preset (`direct`, `block`, `must_direct`) nor the name of any
persisted group, `Run` with noLoad=false fails with the groups-not-defined
error whose name list holds exactly the missing non-preset referenced names,
submits no reload message, and leaves the persisted state untouched.
Persisted group names are taken pairwise distinct (`db.Group.Name` carries a
unique index; the db schema is outside src/). -/
theorem missing_group_aborts_run (o : RunOracle)
    (πd : List NodeRec → List NodeRec) (πg : List GroupRec → List GroupRec)
    (πn : List String → List String) (hπn : ∀ l : List String, (πn l).Perm l)
    (st : DbState) (mc : ConfigRec) (md : DnsRec) (mr : RoutingRec)
    (hc : st.configs.find? (fun c => c.selected) = some mc)
    (hd : st.dnss.find? (fun c => c.selected) = some md)
    (hr : st.routings.find? (fun c => c.selected) = some mr)
    (hparse : o.parseOk mc.global md.dns mr.routing = none)
    (hgnames : (st.groups.map (fun g => g.name)).Nodup)
    (nm : String) (hnm : nm ∈ o.outboundsOf mr.routing)
    (hnp : nm ∉ presetOutbounds)
    (hng : ∀ g ∈ st.groups, g.name ≠ nm) :
    ∃ names,
      (configRun o πd πg πn st false).result = .error (.groupsNotDefined names) ∧
      (∀ x, x ∈ names ↔
        (x ∈ o.outboundsOf mr.routing ∧ x ∉ presetOutbounds ∧
          ∀ g ∈ st.groups, g.name ≠ x)) ∧
      (configRun o πd πg πn st false).reloads = [] ∧
      (configRun o πd πg πn st false).db = st := by
  -- the found-groups count is strictly below the referenced count
  have hsub : ((st.groups.filter (fun g => (o.outboundsOf mr.routing).contains g.name)).map
      (fun g => g.name)) ⊆ (o.outboundsOf mr.routing).erase nm := by
    intro x hx
    obtain ⟨g, hg, rfl⟩ := List.mem_map.mp hx
    have hgf := List.mem_filter.mp hg
    have hgo : g.name ∈ o.outboundsOf mr.routing := by
      have := hgf.2
      exact List.mem_of_elem_eq_true this
    exact (List.mem_erase_of_ne (hng g hgf.1)).mpr hgo
  have hnd : ((st.groups.filter (fun g => (o.outboundsOf mr.routing).contains g.name)).map
      (fun g => g.name)).Nodup :=
    hgnames.sublist ((List.filter_sublist st.groups).map (fun g => g.name))
  have hle := (hnd.subperm hsub).length_le
  rw [List.length_erase_of_mem hnm] at hle
  have hpos : 0 < (o.outboundsOf mr.routing).length :=
    List.length_pos.mpr (List.ne_nil_of_mem hnm)
  have hB : (st.groups.filter (fun g => (o.outboundsOf mr.routing).contains g.name)).length
      ≠ (o.outboundsOf mr.routing).length := by
    rw [← List.length_map (st.groups.filter
      (fun g => (o.outboundsOf mr.routing).contains g.name)) (fun g => g.name)]
    omega
  -- the missing name is listed
  have hnmbase : nm ∈ (o.outboundsOf mr.routing).dedup.filter (fun x =>
      !presetOutbounds.contains x && !st.groups.any (fun g => g.name == x)) := by
    rw [List.mem_filter]
    refine ⟨List.mem_dedup.mpr hnm, ?_⟩
    simp [hnp]
    intro g hg
    exact hng g hg
  have hN : πn ((o.outboundsOf mr.routing).dedup.filter (fun x =>
      !presetOutbounds.contains x && !st.groups.any (fun g => g.name == x))) ≠ [] :=
    List.ne_nil_of_mem ((hπn _).mem_iff.mpr hnmbase)
  refine ⟨πn ((o.outboundsOf mr.routing).dedup.filter (fun x =>
      !presetOutbounds.contains x && !st.groups.any (fun g => g.name == x))), ?_, ?_, ?_, ?_⟩
  all_goals
    try (unfold configRun
         rw [if_neg (by simp), hc, hd, hr]
         dsimp only
         rw [hparse]
         dsimp only
         rw [if_pos hB, if_pos hN])
  · intro x
    rw [(hπn _).mem_iff, List.mem_filter, List.mem_dedup]
    constructor
    · rintro ⟨h1, h2⟩
      simp at h2
      refine ⟨h1, h2.1, ?_⟩
      intro g hg
      exact h2.2 g hg
    · rintro ⟨h1, h2, h3⟩
      refine ⟨h1, ?_⟩
      simp [h2]
      intro g hg
      exact h3 g hg

/-- Oracle for the C3 witness: routing references `G1`, which `exDb` does
not persist. -/
def exOracle3 : RunOracle :=
  { parseOk := fun _ _ _ => none,
    outboundsOf := fun _ => ["G1"],
    reloadResult := fun _ => none }

theorem missing_group_aborts_run_witness :
    (∃ names,
      (configRun exOracle3 id id id exDb false).result
        = .error (.groupsNotDefined names) ∧ "G1" ∈ names) ∧
    (configRun exOracle3 id id id exDb false).reloads = [] ∧
    (configRun exOracle3 id id id exDb false).db = exDb := by
  obtain ⟨names, h1, h2, h3, h4⟩ :=
    missing_group_aborts_run exOracle3
      id id id (fun l => List.Perm.refl l) exDb
      { id := 1, global := "global{}", selected := true, version := 3 }
      { id := 1, dns := "dns{}", selected := true, version := 2 }
      { id := 1, routing := "routing{}", selected := true, version := 5 }
      rfl rfl rfl rfl (by decide) "G1" (by decide) (by decide)
      (fun g hg => absurd hg (by simp [exDb]))
  exact ⟨⟨names, h1, (h2 "G1").mpr
      ⟨by decide, by decide, fun g hg => absurd hg (by simp [exDb])⟩⟩, h3, h4⟩

end DW
